import Mathlib

/-!
# Verification of the LogSearcher reverse block reader

A shallow embedding, at the byte level, of the core of the LogSearcher
repository: `ReverseBlockReader` and `generateLines`
(`src/server/src/utils/blockReader.ts`), the `UTF8Validator`
(`utils/validators.ts`), and the `EntriesValidator`.

Conventions of the embedding:
* A file, a buffer and a string are byte lists (`List Nat`); JavaScript
  strings are represented by their UTF-8 bytes, so `Buffer.toString('utf8')`
  after a successful fatal validation is the identity, `split('\n')` splits
  on byte `0x0A`, and `String.includes` is byte-infix search.
* `Buffer.alloc(blockSize)` is a list of `blockSize` zero bytes; a positioned
  `read` overwrites a prefix of that list and keeps the stale tail, exactly
  as Node keeps the previous contents of the reused buffer.
* `number` sizes and offsets are `Nat`; `entriesRemaining`, which the source
  sets to `Infinity` when no cap is given, is `Option Nat` with `none` for
  `Infinity`.
* `async`/`await` suspensions and generator `yield`s are flattened: yielded
  strings accumulate in `RState.output`, and every `fileHandle.stat` /
  `fileHandle.read` call is recorded in `RState.events`.
* The file content is fixed at open time; the results of successive
  `stat` calls are a parameter `mtimes : Nat → Nat` giving the modification
  time returned by the n-th stat performed on the handle.
* Loops of the source are modelled with an explicit fuel argument; the
  public entry points pass enough fuel, and running out is reported as the
  distinguished error `RErr.fuelOut` (the source would instead loop forever,
  which only happens for `blockSize = 0`).
-/

namespace LogSearcher

/-- Bytes of a file, buffer or string. -/
abbrev Bytes := List Nat

/-- The newline byte `0x0A` that `ReverseBlockReader.NEW_LINE` holds. -/
def NL : Nat := 10

/-- `buffer.subarray(a, b)` / reading the byte range `[a, b)` of a file. -/
def slice (s : Bytes) (a b : Nat) : Bytes := (s.drop a).take (b - a)

/-- Writing `data` at offset 0 of a fixed-size buffer: the bytes past
`data.length` keep their previous (stale) contents, as with a reused
`Buffer` in Node. -/
def writeBuf (buf data : Bytes) : Bytes := data ++ buf.drop data.length

/-- `string.split('\n')` at the byte level. -/
def splitNL : Bytes → List Bytes
  | [] => [[]]
  | b :: bs =>
    if b = NL then [] :: splitNL bs
    else (b :: (splitNL bs).headI) :: (splitNL bs).tail

/-- `parts.join('\n')` at the byte level. -/
def joinNL (ls : List Bytes) : Bytes := List.intercalate [NL] ls

/-- `hay.startsWith(needle)` at the byte level (`needle` first). -/
def leadsB : Bytes → Bytes → Bool
  | [], _ => true
  | _ :: _, [] => false
  | a :: as, b :: bs => (a == b) && leadsB as bs

/-- `hay.includes(needle)`: substring search, as performed by
`String.prototype.includes` / `Buffer.prototype.includes` on the UTF-8
bytes. -/
def includesB : Bytes → Bytes → Bool
  | [], needle => needle.isEmpty
  | h :: t, needle => leadsB needle (h :: t) || includesB t needle

/-! ## UTF-8 validation

`UTF8Validator` (utils/validators.ts) delegates to `TextDecoder('utf-8',
{ fatal: true })`; its byte acceptor is the UTF-8 decoder state machine of
the WHATWG Encoding standard, which we embed here: `.clean` is the state
with no pending partial character, `.expect needed lo hi` awaits `needed`
more bytes, the next of which must lie in `[lo, hi]`. -/

inductive Utf8State where
  | clean : Utf8State
  | expect (needed lo hi : Nat) : Utf8State
deriving DecidableEq

/-- One byte of the WHATWG UTF-8 decoder; `none` is a decode error, which
the fatal `TextDecoder` turns into a thrown `TypeError`. -/
def utf8Step : Utf8State → Nat → Option Utf8State
  | .clean, b =>
    if b ≤ 0x7F then some .clean
    else if 0xC2 ≤ b ∧ b ≤ 0xDF then some (.expect 1 0x80 0xBF)
    else if b = 0xE0 then some (.expect 2 0xA0 0xBF)
    else if b = 0xED then some (.expect 2 0x80 0x9F)
    else if (0xE1 ≤ b ∧ b ≤ 0xEC) ∨ (0xEE ≤ b ∧ b ≤ 0xEF) then
      some (.expect 2 0x80 0xBF)
    else if b = 0xF0 then some (.expect 3 0x90 0xBF)
    else if 0xF1 ≤ b ∧ b ≤ 0xF3 then some (.expect 3 0x80 0xBF)
    else if b = 0xF4 then some (.expect 3 0x80 0x8F)
    else none
  | .expect n lo hi, b =>
    if lo ≤ b ∧ b ≤ hi then
      if n ≤ 1 then some .clean else some (.expect (n - 1) 0x80 0xBF)
    else none

/-- Running the decoder over a byte sequence. -/
def utf8Run : Utf8State → Bytes → Option Utf8State
  | s, [] => some s
  | s, b :: bs =>
    match utf8Step s b with
    | none => none
    | some s' => utf8Run s' bs

/-- The errors the reader can throw. `boundaryErr` is the
`'Invalid UTF-8 sequence detected'` throw of `findLastValidUTF8Boundary`;
`fuelOut` marks a run that exhausted its fuel (the source would loop
forever, which requires `blockSize = 0`). -/
inductive RErr where
  | fileModified
  | invalidUtf8
  | incompleteUtf8
  | boundaryErr
  | fuelOut
deriving DecidableEq

/-- The `UTF8Validator` of utils/validators.ts: a wrapper around one
stateful fatal `TextDecoder`. -/
structure UTF8Validator where
  decoder : Utf8State
deriving DecidableEq

def UTF8Validator.start : UTF8Validator := ⟨.clean⟩

/-- `UTF8Validator.validateUtf8Chunk(chunk, stream)`: decodes the chunk with
the persistent decoder and returns the chunk unchanged on success.  With
`stream = false` (the default) the decoder additionally rejects a pending
incomplete character at the end of the chunk and resets. -/
def validateUtf8Chunk (v : UTF8Validator) (chunk : Bytes) (stream : Bool) :
    Except RErr (Bytes × UTF8Validator) :=
  match utf8Run v.decoder chunk with
  | none => .error .invalidUtf8
  | some st =>
    if stream then .ok (chunk, ⟨st⟩)
    else if st = .clean then .ok (chunk, ⟨.clean⟩)
    else .error .invalidUtf8

/-- `UTF8Validator.finalizeValidation()`: flushes the decoder; pending
incomplete data is an error. -/
def finalizeValidation (v : UTF8Validator) : Except RErr UTF8Validator :=
  if v.decoder = .clean then .ok ⟨.clean⟩ else .error .incompleteUtf8

/-- `getUTF8SequenceLength` of blockReader.ts. -/
def getUTF8SequenceLength (b : Nat) : Nat :=
  if b < 0x80 then 1
  else if b &&& 0xE0 = 0xC0 then 2
  else if b &&& 0xF0 = 0xE0 then 3
  else if b &&& 0xF8 = 0xF0 then 4
  else 1

/-- A UTF-8 continuation byte (`(b & 0xC0) === 0x80`). -/
def isContinuation (b : Nat) : Bool := b &&& 0xC0 == 0x80

/-- `findLastValidUTF8Boundary` of blockReader.ts: walk backwards over
continuation bytes to the last lead byte; if no lead byte exists the source
throws (`none` here); if the trailing sequence is shorter than the length
announced by its lead byte, cut before it, otherwise keep everything. -/
def findLastValidUTF8Boundary (buffer : Bytes) : Option Nat :=
  if buffer.length = 0 then some 0
  else
    match buffer.reverse.findIdx? (fun b => !isContinuation b) with
    | none => none
    | some k =>
      let i := buffer.length - 1 - k
      let seqLength := getUTF8SequenceLength (buffer.getD i 0)
      if buffer.length - i < seqLength then some i else some buffer.length

/-- Any `expect` state the decoder can actually reach demands a first byte
of at least `0x80`. -/
def utf8StateOK : Utf8State → Prop
  | .clean => True
  | .expect _ lo _ => 0x80 ≤ lo

/-! ## The ReverseBlockReader -/

/-- `BlockReaderOptions` of blockReader.ts. -/
structure BlockReaderOptions where
  blockSize : Nat
  memBuffer : Nat
deriving DecidableEq

/-- The default options: 1 MiB blocks, 10 MiB leftover ceiling. -/
def defaultOptions : BlockReaderOptions :=
  ⟨1024 * 1024, 10 * 1024 * 1024⟩

/-- Instrumentation: the `stat` and positioned-`read` calls the reader makes
on the file handle, in order.  The read kinds record the call site: the main
`readBlocks` loop, the backward newline scan, the streaming search, and the
forward emission of an oversized line. -/
inductive Event where
  | stat : Event
  | readMain (pos len : Nat) : Event
  | readScan (pos len : Nat) : Event
  | readSearch (pos len : Nat) : Event
  | readEmit (pos len : Nat) : Event
deriving DecidableEq

/-- The immutable inputs of one reader run: the file content as captured at
open time, the options, the `numEntries` cap (`none` = `undefined`, which
`reset` turns into `Infinity`), the search term as UTF-8 bytes (`none` =
`undefined`), and the modification time the n-th `stat` call reports. -/
structure Env where
  file : Bytes
  opts : BlockReaderOptions
  numEntries : Option Nat
  search : Option Bytes
  mtimes : Nat → Nat

/-- The mutable fields of a `ReverseBlockReader`, plus the yielded strings
(`output`, as UTF-8 bytes) and the handle-call trace (`events`). -/
structure RState where
  leftover : Bytes
  fileBuffer : Bytes
  curPosition : Nat
  entriesRemaining : Option Nat
  utf8Validator : UTF8Validator
  initialMtimeMs : Nat
  statCount : Nat
  output : List Bytes
  events : List Event

/-- `entriesRemaining > 0`, where `none` stands for `Infinity`. -/
def entriesPos : Option Nat → Bool
  | none => true
  | some k => decide (0 < k)

/-- `checkFileIntegrity`: stat the handle and fail when the modification
time advanced past the one captured by `reset`. -/
def checkFileIntegrity (env : Env) (st : RState) : RState × Option RErr :=
  let m := env.mtimes st.statCount
  let st1 := { st with
    statCount := st.statCount + 1
    events := st.events ++ [Event.stat] }
  if st1.initialMtimeMs < m then (st1, some .fileModified) else (st1, none)

/-- `processBlockWithNewline(readSize, newlinePos)`: validate the bytes
after the first newline together with the previous leftover, keep the bytes
before the newline as the new leftover, split, reverse, filter by the
search term (or drop empty lines), truncate to `entriesRemaining`, and
yield the joined batch. -/
def processBlockWithNewline (env : Env) (st : RState)
    (readSize newlinePos : Nat) : RState × Option RErr :=
  let linesBuffer :=
    (st.fileBuffer.take readSize).drop (newlinePos + 1) ++ st.leftover
  match validateUtf8Chunk st.utf8Validator linesBuffer false with
  | .error e => (st, some e)
  | .ok (validated, v1) =>
    let st1 := { st with
      utf8Validator := v1
      leftover := st.fileBuffer.take newlinePos }
    let decoded := (splitNL validated).reverse
    let processedBlock :=
      match env.search with
      | some t =>
        if t.isEmpty then decoded.filter (fun line => !line.isEmpty)
        else decoded.filter (fun line => includesB line t)
      | none => decoded.filter (fun line => !line.isEmpty)
    let processedBlock2 :=
      match st1.entriesRemaining with
      | none => processedBlock
      | some k =>
        if k < processedBlock.length then processedBlock.take k
        else processedBlock
    let st2 := { st1 with
      entriesRemaining :=
        st1.entriesRemaining.map (fun k => k - processedBlock2.length) }
    if processedBlock2.length ≠ 0 then
      ({ st2 with output := st2.output ++ [joinNL processedBlock2 ++ [NL]] },
        none)
    else (st2, none)

/-- `findNewlinePositionBackward(startPos)`: read blocks backwards until the
shared block buffer contains a newline byte (note: the source searches the
whole buffer, stale tail included) and return the position after it, or 0 at
the file start. -/
def findNewlinePositionBackward (env : Env) :
    Nat → RState → Nat → RState × Option RErr × Nat
  | 0, st, _ => (st, some .fuelOut, 0)
  | fuel + 1, st, position =>
    if 0 < position then
      let readSize := min env.opts.blockSize position
      let position1 := position - readSize
      let st1 := { st with
        fileBuffer :=
          writeBuf st.fileBuffer (slice env.file position1 (position1 + readSize))
        events := st.events ++ [Event.readScan position1 readSize] }
      match st1.fileBuffer.findIdx? (fun b => b == NL) with
      | some newlinePos => (st1, none, position1 + newlinePos + 1)
      | none => findNewlinePositionBackward env fuel st1 position1
    else (st, none, 0)

/-- The overlap retained between two streaming-search chunks:
`chunk.subarray(-Math.max(0, byteLength(term) - 1))`.  For a term of byte
length 1 (or 0) this is `chunk.subarray(0)`, the whole chunk. -/
def nextSearchBuffer (t chunk : Bytes) : Bytes :=
  let keep := max 0 (t.length - 1)
  if keep = 0 then chunk else chunk.drop (chunk.length - keep)

/-- The loop of `streamingSearch`: forward fixed-size chunks over
`[currentPos, endPos)`, each decoded together with the retained overlap and
searched for the term. -/
def streamingSearchGo (env : Env) (t : Bytes) :
    Nat → RState → Bytes → Nat → Nat → RState × Option RErr × Bool
  | 0, st, _, _, _ => (st, some .fuelOut, false)
  | fuel + 1, st, searchBuffer, currentPos, endPos =>
    if currentPos < endPos then
      let chunkSize := min env.opts.blockSize (endPos - currentPos)
      let chunk := slice env.file currentPos (currentPos + chunkSize)
      let st1 :=
        { st with events := st.events ++ [Event.readSearch currentPos chunkSize] }
      if includesB (searchBuffer ++ chunk) t then (st1, none, true)
      else
        streamingSearchGo env t fuel st1 (nextSearchBuffer t chunk)
          (currentPos + chunkSize) endPos
    else (st, none, false)

/-- `streamingSearch(startPos, endPos)`: immediately true with no search
term, otherwise the chunked scan. -/
def streamingSearch (env : Env) (st : RState) (startPos endPos : Nat) :
    RState × Option RErr × Bool :=
  match env.search with
  | none => (st, none, true)
  | some t =>
    streamingSearchGo env t (endPos - startPos + 1) st [] startPos endPos

/-- The emission loop of `handleLargeLeftover`: stream `[pos, endPos)`
forward, cutting each read at the last complete UTF-8 boundary, validating
and yielding the complete part and carrying the rest in `tempBuffer`. -/
def emitOversized (env : Env) :
    Nat → RState → Bytes → Nat → Nat → RState × Option RErr
  | 0, st, _, _, _ => (st, some .fuelOut)
  | fuel + 1, st, tempBuffer, pos, endPos =>
    if pos < endPos then
      let readSize := min env.opts.blockSize (endPos - pos)
      let st1 := { st with
        fileBuffer := writeBuf st.fileBuffer (slice env.file pos (pos + readSize))
        events := st.events ++ [Event.readEmit pos readSize] }
      let combined := tempBuffer ++ st1.fileBuffer.take readSize
      match findLastValidUTF8Boundary combined with
      | none => (st1, some .boundaryErr)
      | some validBoundary =>
        match validateUtf8Chunk st1.utf8Validator (combined.take validBoundary)
            true with
        | .error e => (st1, some e)
        | .ok (validated, v1) =>
          emitOversized env fuel
            { st1 with
              utf8Validator := v1
              output := st1.output ++ [validated] }
            (combined.drop validBoundary) (pos + readSize) endPos
    else (st, none)

/-- `handleLargeLeftover(currentPosition)`: record the end of the unresolved
line, clear the leftover, scan backwards for its start, and — only if the
streaming search succeeds — emit the whole line in chunks, move the read
position to `Math.max(startPos - 1, 0)`, decrement the entry counter by one
and finish the line with a newline.  When the search finds nothing the
source updates no position at all. -/
def handleLargeLeftover (env : Env) (st : RState) (currentPosition : Nat) :
    RState × Option RErr :=
  let endPos := currentPosition + st.leftover.length
  let st0 := { st with leftover := [] }
  match findNewlinePositionBackward env (currentPosition + 1) st0
      currentPosition with
  | (st1, some e, _) => (st1, some e)
  | (st1, none, startPos) =>
    match streamingSearch env st1 startPos endPos with
    | (st2, some e, _) => (st2, some e)
    | (st2, none, false) => (st2, none)
    | (st2, none, true) =>
      match emitOversized env (endPos - startPos + 1) st2 [] startPos endPos with
      | (st3, some e) => (st3, some e)
      | (st3, none) =>
        let st4 := { st3 with
          curPosition := startPos - 1
          entriesRemaining := st3.entriesRemaining.map (fun k => k - 1) }
        match finalizeValidation st4.utf8Validator with
        | .error e => (st4, some e)
        | .ok v1 =>
          ({ st4 with utf8Validator := v1, output := st4.output ++ [[NL]] },
            none)

/-- The final-leftover step at the end of `readBlocks`: when the offset
reached 0 (or the cap ran out) with a non-empty leftover, entries remaining
and a passing search filter, validate and yield it with a terminator. -/
def finalLeftover (env : Env) (st : RState) : RState × Option RErr :=
  if st.leftover.length ≠ 0 ∧ entriesPos st.entriesRemaining = true ∧
      (env.search = none ∨ includesB st.leftover (env.search.getD []) = true)
  then
    match validateUtf8Chunk st.utf8Validator st.leftover false with
    | .error e => (st, some e)
    | .ok (validated, v1) =>
      ({ st with
        utf8Validator := v1
        output := st.output ++ [validated ++ [NL]] }, none)
  else (st, none)

/-- The `while` loop of `readBlocks` followed by the final-leftover step. -/
def readBlocksLoop (env : Env) : Nat → RState → RState × Option RErr
  | 0, st => (st, some .fuelOut)
  | fuel + 1, st =>
    if 0 < st.curPosition ∧ entriesPos st.entriesRemaining = true then
      match checkFileIntegrity env st with
      | (st1, some e) => (st1, some e)
      | (st1, none) =>
        let readSize := min env.opts.blockSize st1.curPosition
        let pos1 := st1.curPosition - readSize
        let st2 := { st1 with
          curPosition := pos1
          fileBuffer := writeBuf st1.fileBuffer (slice env.file pos1 (pos1 + readSize))
          events := st1.events ++ [Event.readMain pos1 readSize] }
        match (st2.fileBuffer.take readSize).findIdx? (fun b => b == NL) with
        | none =>
          let st3 :=
            { st2 with leftover := st2.fileBuffer.take readSize ++ st2.leftover }
          if env.opts.memBuffer < st3.leftover.length then
            match handleLargeLeftover env st3 st3.curPosition with
            | (st4, some e) => (st4, some e)
            | (st4, none) => readBlocksLoop env fuel st4
          else readBlocksLoop env fuel st3
        | some newlinePos =>
          match processBlockWithNewline env st2 readSize newlinePos with
          | (st3, some e) => (st3, some e)
          | (st3, none) => readBlocksLoop env fuel st3
    else finalLeftover env st

/-- `reset()`: stat the handle once, capturing size and modification time,
and initialise the cursor and the entry counter. -/
def resetState (env : Env) : RState :=
  { leftover := []
    fileBuffer := List.replicate env.opts.blockSize 0
    curPosition := env.file.length
    entriesRemaining := env.numEntries
    utf8Validator := UTF8Validator.start
    initialMtimeMs := env.mtimes 0
    statCount := 1
    output := []
    events := [Event.stat] }

/-- `readBlocks()`: reset, loop, final leftover.  The fuel
`env.file.length + 1` suffices whenever `blockSize ≥ 1`, because every
iteration strictly decreases `curPosition`. -/
def readBlocks (env : Env) : RState × Option RErr :=
  readBlocksLoop env (env.file.length + 1) (resetState env)

/-- The fields a constructed `ReverseBlockReader` stores (the file handle
itself is left abstract; the constructor never inspects it). -/
structure ReverseBlockReader where
  numEntries : Option Nat
  search : Option Bytes
  options : BlockReaderOptions
  fileBuffer : Bytes

/-- The `ReverseBlockReader` constructor: allocate the block buffer and
throw when `blockSize >= memBuffer`. -/
def mkReverseBlockReader (numEntries : Option Nat) (search : Option Bytes)
    (opts : BlockReaderOptions) : Except String ReverseBlockReader :=
  let fileBuffer := List.replicate opts.blockSize 0
  if opts.memBuffer ≤ opts.blockSize then
    .error "blockSize must be less than memBuffer"
  else
    .ok ⟨numEntries, search, opts, fileBuffer⟩

/-- `generateLines(filePath, numEntries, search)`: open the file (`openOk`
says whether `fs.open` succeeds), construct a reader with the default
options, run it, replace any thrown error by the generic
`'Error reading file'`, and close the handle in the `finally` block whenever
it was opened (close failures are swallowed).  The second component reports
whether the handle was closed. -/
def generateLines (file : Bytes) (numEntries : Option Nat)
    (search : Option Bytes) (mtimes : Nat → Nat) (openOk : Bool) :
    Except String (List Bytes) × Bool :=
  if !openOk then (.error "Error reading file", false)
  else
    match mkReverseBlockReader numEntries search defaultOptions with
    | .error _ => (.error "Error reading file", true)
    | .ok _ =>
      match readBlocks ⟨file, defaultOptions, numEntries, search, mtimes⟩ with
      | (st, none) => (.ok st.output, true)
      | (_, some _) => (.error "Error reading file", true)


/-! ## Specification-side definitions

These definitions phrase what the specification asserts, to be compared
with the behaviour of the embedded code above. -/

/-- Whether a line passes the active filter: with a non-empty search term
the lines containing it; with no term (or, as the source's truthiness test
has it, an empty term) the non-empty lines. -/
def lineKept (search : Option Bytes) (line : Bytes) : Bool :=
  match search with
  | some t => if t.isEmpty then !line.isEmpty else includesB line t
  | none => !line.isEmpty

/-- Truncation by the optional entry cap (`none` = unbounded). -/
def takeEnt : Option Nat → List Bytes → List Bytes
  | none, ls => ls
  | some k, ls => ls.take k

/-- The lines a read is specified to produce: the physical lines, most
recent first, filtered, and truncated to the entry cap. -/
def expectedLines (search : Option Bytes) (e : Option Nat) (s : Bytes) :
    List Bytes :=
  takeEnt e ((splitNL s).reverse.filter (lineKept search))

/-- A list of lines as one terminator-suffixed byte stream. -/
def joinTerm (ls : List Bytes) : Bytes := (ls.map (fun l => l ++ [NL])).flatten

/-- The byte stream a read is specified to produce. -/
def expectedOut (search : Option Bytes) (e : Option Nat) (s : Bytes) : Bytes :=
  joinTerm (expectedLines search e s)

/-- The physical lines of a file: the terminator-delimited pieces, without
the empty artifact a trailing terminator leaves behind (a file ending in
`\n` has no empty final line). -/
def physicalLines (s : Bytes) : List Bytes :=
  if (splitNL s).getLast? = some [] then (splitNL s).dropLast else splitNL s

/-- The output the claim "exactly F's physical lines in reverse physical
order, each terminator-preserved" describes: every physical line, reversed,
terminator-suffixed, with no filtering at all. -/
def claimedFullOut (s : Bytes) : Bytes :=
  joinTerm (physicalLines s).reverse

/-- Character-level UTF-8: `encodesChar bs` says `bs` is the encoding of one
scalar value, by the byte ranges of RFC 3629 (surrogates and values above
U+10FFFF excluded). -/
def encodesChar : Bytes → Prop
  | [b] => b ≤ 0x7F
  | [b1, b2] => 0xC2 ≤ b1 ∧ b1 ≤ 0xDF ∧ 0x80 ≤ b2 ∧ b2 ≤ 0xBF
  | [b1, b2, b3] =>
      ((b1 = 0xE0 ∧ 0xA0 ≤ b2 ∧ b2 ≤ 0xBF) ∨
        (0xE1 ≤ b1 ∧ b1 ≤ 0xEC ∧ 0x80 ≤ b2 ∧ b2 ≤ 0xBF) ∨
        (b1 = 0xED ∧ 0x80 ≤ b2 ∧ b2 ≤ 0x9F) ∨
        (0xEE ≤ b1 ∧ b1 ≤ 0xEF ∧ 0x80 ≤ b2 ∧ b2 ≤ 0xBF)) ∧
      0x80 ≤ b3 ∧ b3 ≤ 0xBF
  | [b1, b2, b3, b4] =>
      ((b1 = 0xF0 ∧ 0x90 ≤ b2 ∧ b2 ≤ 0xBF) ∨
        (0xF1 ≤ b1 ∧ b1 ≤ 0xF3 ∧ 0x80 ≤ b2 ∧ b2 ≤ 0xBF) ∨
        (b1 = 0xF4 ∧ 0x80 ≤ b2 ∧ b2 ≤ 0x8F)) ∧
      0x80 ≤ b3 ∧ b3 ≤ 0xBF ∧ 0x80 ≤ b4 ∧ b4 ≤ 0xBF
  | _ => False

/-- A byte string is well-formed UTF-8 when it is a concatenation of
single-character encodings. -/
inductive Utf8Chars : Bytes → Prop
  | nil : Utf8Chars []
  | cons {c rest : Bytes} : encodesChar c → Utf8Chars rest →
      Utf8Chars (c ++ rest)

/-- Feeding a sequence of chunks through one `UTF8Validator` in streaming
mode, then calling `finalizeValidation`, as the oversized-line emission path
does. -/
def feedChunks (v : UTF8Validator) : List Bytes → Except RErr UTF8Validator
  | [] => finalizeValidation v
  | c :: cs =>
    match validateUtf8Chunk v c true with
    | .error e => .error e
    | .ok (_, v1) => feedChunks v1 cs

/-- Whether an event is one of the reader's positioned reads. -/
def Event.isRead : Event → Bool
  | .stat => false
  | .readMain _ _ => true
  | .readScan _ _ => true
  | .readSearch _ _ => true
  | .readEmit _ _ => true

/-- Whether an event is a read of the main `readBlocks` loop. -/
def Event.isMainRead : Event → Bool
  | .readMain _ _ => true
  | _ => false

/-- `statGuardedFrom p prevIsStat evs`: every event of `evs` selected by `p`
is immediately preceded by a `stat` (`prevIsStat` says whether the event
just before `evs` was one). -/
def statGuardedFrom (p : Event → Bool) : Bool → List Event → Bool
  | _, [] => true
  | prevIsStat, e :: rest =>
    (if p e then prevIsStat else true) &&
      statGuardedFrom p (e == Event.stat) rest

/-- The trace property "the reader re-stats the file before every physical
read it performs": every read event is immediately preceded by a stat. -/
def statBeforeEveryRead (evs : List Event) : Bool :=
  statGuardedFrom Event.isRead false evs

/-- The weaker property that holds of the code: every *main-loop* read is
immediately preceded by a stat. -/
def statBeforeEveryMainRead (evs : List Event) : Bool :=
  statGuardedFrom Event.isMainRead false evs

/-! ## Query validation (validators.ts) -/

/-- The code points ECMAScript `parseInt` skips via `TrimString`:
WhiteSpace (TAB, VT, FF, SP, NBSP, the Zs space separators U+1680,
U+2000..U+200A, U+202F, U+205F, U+3000, and the BOM) together with the
LineTerminators (LF, CR, U+2028, U+2029). -/
def isJsWhitespace (c : Nat) : Bool :=
  c = 9 || c = 10 || c = 11 || c = 12 || c = 13 || c = 32 ||
    c = 0xA0 || c = 0x1680 || (0x2000 ≤ c && c ≤ 0x200A) ||
    c = 0x2028 || c = 0x2029 || c = 0x202F || c = 0x205F ||
    c = 0x3000 || c = 0xFEFF

/-- An ASCII decimal digit. -/
def isDigitB (c : Nat) : Bool := 48 ≤ c && c ≤ 57

/-- The numeric value of a digit string. -/
def digitsVal (ds : List Nat) : Nat :=
  ds.foldl (fun acc c => acc * 10 + (c - 48)) 0

/-- `parseInt(s, 10)`: skip leading whitespace, take an optional sign, then
the maximal run of decimal digits; no digit at all is `NaN` (`none`).
Characters are represented by their code points. -/
def parseIntDec (s : List Nat) : Option Int :=
  let s1 := s.dropWhile isJsWhitespace
  let sign : Int := match s1 with
    | 45 :: _ => -1
    | _ => 1
  let s2 := match s1 with
    | 45 :: r => r
    | 43 :: r => r
    | r => r
  let ds := s2.takeWhile isDigitB
  if ds.isEmpty then none else some (sign * (digitsVal ds : Int))

/-- `Number.MAX_SAFE_INTEGER`. -/
def maxSafeInteger : Nat := 2 ^ 53 - 1

/-- `EntriesValidator.validate`: absent is accepted; otherwise the string
must `parseInt` to a value that is neither `NaN`, negative, nor above
`MAX_SAFE_INTEGER`.  (For a digit string of value above 2^53 the float
`parseInt` returns still rounds to at least 2^53, so comparing against the
exact value decides `parsed > maxEntries` identically.) -/
def entriesAccepted (entries : Option (List Nat)) : Bool :=
  match entries with
  | none => true
  | some s =>
    match parseIntDec s with
    | none => false
    | some v => !(v < 0 || (maxSafeInteger : Int) < v)

/-- What the claim "parses as a non-negative integer" describes: the value
is a plain decimal numeral. -/
def isNonNegIntString (s : List Nat) : Bool :=
  !s.isEmpty && s.all isDigitB

/-! ## Theorems: basic lemmas about the embedding -/

theorem splitNL_ne_nil (s : Bytes) : splitNL s ≠ [] := by
  cases s with
  | nil => simp [splitNL]
  | cons b bs => simp only [splitNL]; split <;> simp

theorem splitNL_cons (b : Nat) (bs : Bytes) :
    splitNL (b :: bs) =
      if b = NL then [] :: splitNL bs
      else (b :: (splitNL bs).headI) :: (splitNL bs).tail := rfl

theorem headI_cons_tail_of_ne_nil {α : Type} [Inhabited α] (l : List α) (h : l ≠ []) :
    l.headI :: l.tail = l := by
  cases l with
  | nil => exact absurd rfl h
  | cons x xs => rfl

/-- Splitting distributes over an explicit separator. -/
theorem splitNL_append (a b : Bytes) :
    splitNL (a ++ NL :: b) = splitNL a ++ splitNL b := by
  induction a with
  | nil => simp [splitNL_cons, splitNL]
  | cons x xs ih =>
    rw [List.cons_append, splitNL_cons, splitNL_cons, ih]
    by_cases hx : x = NL
    · simp [hx]
    · rw [if_neg hx, if_neg hx]
      have hne := splitNL_ne_nil xs
      rcases hsp : splitNL xs with _ | ⟨h', t'⟩
      · exact absurd hsp hne
      · simp [hsp]

/-- A newline-free string is a single line. -/
theorem splitNL_nlfree (s : Bytes) (h : NL ∉ s) : splitNL s = [s] := by
  induction s with
  | nil => simp [splitNL]
  | cons b bs ih =>
    rw [splitNL_cons]
    have hb : b ≠ NL := fun hb => h (hb ▸ List.mem_cons_self b bs)
    rw [if_neg hb, ih (fun hm => h (List.mem_cons_of_mem b hm))]
    simp [List.headI]

theorem joinNL_cons (l : Bytes) (ls : List Bytes) (h : ls ≠ []) :
    joinNL (l :: ls) = l ++ NL :: joinNL ls := by
  rcases ls with _ | ⟨m, ms⟩
  · exact absurd rfl h
  · simp only [joinNL, List.intercalate]
    rw [List.intersperse_cons_cons]
    simp

theorem leadsB_iff (n h : Bytes) : leadsB n h = true ↔ n <+: h := by
  induction n generalizing h with
  | nil => simp [leadsB]
  | cons a as ih =>
    cases h with
    | nil => simp [leadsB]
    | cons b bs =>
      simp only [leadsB, Bool.and_eq_true, beq_iff_eq, ih, List.cons_prefix_cons]

theorem includesB_iff (h n : Bytes) : includesB h n = true ↔ n <:+: h := by
  induction h with
  | nil => simp [includesB, List.isEmpty_iff, List.infix_nil]
  | cons b bs ih =>
    simp only [includesB, Bool.or_eq_true, leadsB_iff, ih,
      List.infix_cons_iff]

theorem utf8Run_append (s : Utf8State) (a b : Bytes) :
    utf8Run s (a ++ b) = (utf8Run s a).bind (fun s' => utf8Run s' b) := by
  induction a generalizing s with
  | nil => simp [utf8Run]
  | cons x xs ih =>
    simp only [List.cons_append, utf8Run]
    cases utf8Step s x with
    | none => simp
    | some s' => simpa using ih s'

theorem utf8Step_ok {s : Utf8State} {b : Nat} {s' : Utf8State}
    (hs : utf8StateOK s) (h : utf8Step s b = some s') : utf8StateOK s' := by
  cases s with
  | clean =>
    simp only [utf8Step] at h
    split at h <;> [skip; split at h] <;> [skip; skip; split at h] <;>
      [skip; skip; skip; split at h] <;> [skip; skip; skip; skip; split at h] <;>
      [skip; skip; skip; skip; skip; split at h] <;>
      [skip; skip; skip; skip; skip; skip; split at h] <;>
      [skip; skip; skip; skip; skip; skip; skip; split at h] <;>
      first
        | (cases h; simp [utf8StateOK])
        | exact absurd h (by simp)
  | expect n lo hi =>
    simp only [utf8Step] at h
    split at h
    · split at h <;> (cases h; simp [utf8StateOK])
    · exact absurd h (by simp)

theorem utf8Run_ok {s : Utf8State} {bs : Bytes} {s' : Utf8State}
    (hs : utf8StateOK s) (h : utf8Run s bs = some s') : utf8StateOK s' := by
  induction bs generalizing s with
  | nil => cases h; exact hs
  | cons x xs ih =>
    simp only [utf8Run] at h
    cases hst : utf8Step s x with
    | none => rw [hst] at h; cases h
    | some s1 => rw [hst] at h; exact ih (utf8Step_ok hs hst) h

/-- A valid UTF-8 string cut at a newline byte falls into two valid UTF-8
strings: `0x0A` is rejected inside a multi-byte sequence, so it is always a
character boundary. -/
theorem utf8Run_split_nl {a b : Bytes}
    (h : utf8Run .clean (a ++ NL :: b) = some .clean) :
    utf8Run .clean a = some .clean ∧ utf8Run .clean b = some .clean := by
  rw [utf8Run_append] at h
  cases ha : utf8Run Utf8State.clean a with
  | none => rw [ha] at h; cases h
  | some s =>
    rw [ha] at h
    simp only [Option.some_bind] at h
    cases s with
    | clean =>
      rw [show utf8Run Utf8State.clean (NL :: b) = utf8Run Utf8State.clean b by
        simp only [utf8Run]
        rw [show utf8Step Utf8State.clean NL = some Utf8State.clean by decide]] at h
      exact ⟨rfl, h⟩
    | expect n lo hi =>
      have hok : utf8StateOK (.expect n lo hi) :=
        utf8Run_ok (show utf8StateOK .clean by trivial) ha
      simp only [utf8StateOK] at hok
      simp only [utf8Run, utf8Step] at h
      rw [if_neg (by simp only [NL]; omega)] at h
      cases h

/-! ## Slice and buffer lemmas -/

theorem slice_self (f : Bytes) : slice f 0 f.length = f := by
  simp [slice]

theorem slice_nil (f : Bytes) (c : Nat) : slice f c c = [] := by
  simp [slice]

theorem slice_length (f : Bytes) (a b : Nat) (hab : a ≤ b)
    (hb : b ≤ f.length) : (slice f a b).length = b - a := by
  simp only [slice, List.length_take, List.length_drop]
  omega

theorem slice_append_slice (f : Bytes) {a b c : Nat} (hab : a ≤ b)
    (hbc : b ≤ c) : slice f a b ++ slice f b c = slice f a c := by
  have h1 : (f.drop a).drop (b - a) = f.drop b := by
    rw [List.drop_drop]; congr 1; omega
  calc slice f a b ++ slice f b c
      = (f.drop a).take (b - a) ++ ((f.drop a).drop (b - a)).take (c - b) := by
        simp only [slice, h1]
    _ = (f.drop a).take ((b - a) + (c - b)) := by rw [List.take_add]
    _ = slice f a c := by simp only [slice]; congr 1; omega

theorem slice_cons (f : Bytes) {a b : Nat} (hab : a < b) (ha : a < f.length) :
    slice f a b = f.getD a 0 :: slice f (a + 1) b := by
  have hd : f.drop a = f[a] :: f.drop (a + 1) := List.drop_eq_getElem_cons ha
  simp only [slice, hd, List.getD_eq_getElem f 0 ha]
  rw [show b - a = (b - (a + 1)) + 1 by omega, List.take_succ_cons]

theorem slice_getD (f : Bytes) {a b i : Nat} (hi : a + i < b)
    (hb : a + i < f.length) :
    (slice f a b).getD i 0 = f.getD (a + i) 0 := by
  have hlt : i < (slice f a b).length := by
    simp only [slice, List.length_take, List.length_drop]; omega
  have h2 : i < (f.drop a).length := by simp; omega
  rw [List.getD_eq_getElem _ 0 hlt, List.getD_eq_getElem f 0 hb]
  simp only [slice, List.getElem_take, List.getElem_drop]

theorem mem_of_getD_slice (f : Bytes) {a b i : Nat} (hi : a + i < b)
    (hb : a + i < f.length) : f.getD (a + i) 0 ∈ slice f a b := by
  rw [← slice_getD f hi hb]
  have hlt : i < (slice f a b).length := by
    simp only [slice, List.length_take, List.length_drop]; omega
  rw [List.getD_eq_getElem _ 0 hlt]
  exact List.getElem_mem hlt

theorem slice_isInfix (f : Bytes) (a b : Nat) : slice f a b <:+: f :=
  ( List.take_prefix (b - a) (f.drop a)).isInfix.trans
    (f.drop_suffix a).isInfix

theorem writeBuf_take (buf d : Bytes) : (writeBuf buf d).take d.length = d := by
  simp [writeBuf, List.take_append_eq_append_take]

theorem writeBuf_length (buf d : Bytes) (h : d.length ≤ buf.length) :
    (writeBuf buf d).length = buf.length := by
  simp only [writeBuf, List.length_append, List.length_drop]
  omega

/-! ## Lemmas about the expected output -/

theorem joinTerm_nil : joinTerm [] = [] := rfl

theorem joinTerm_append (a b : List Bytes) :
    joinTerm (a ++ b) = joinTerm a ++ joinTerm b := by
  simp [joinTerm]

theorem joinTerm_eq_joinNL (ls : List Bytes) (h : ls ≠ []) :
    joinTerm ls = joinNL ls ++ [NL] := by
  induction ls with
  | nil => exact absurd rfl h
  | cons x xs ih =>
    rcases xs with _ | ⟨y, ys⟩
    · simp [joinTerm, joinNL, List.intercalate]
    · rw [joinNL_cons x (y :: ys) (by simp)]
      simp only [joinTerm, List.map_cons, List.flatten_cons] at ih ⊢
      rw [ih (by simp)]
      simp

theorem takeEnt_append (e : Option Nat) (P Q : List Bytes) :
    takeEnt e (P ++ Q) =
      takeEnt e P ++ takeEnt (e.map (fun k => k - (takeEnt e P).length)) Q := by
  cases e with
  | none => simp [takeEnt]
  | some k =>
    simp only [takeEnt, Option.map_some, List.take_append_eq_append_take,
      List.length_take]
    congr 2
    show k - P.length = k - min k P.length
    omega

/-- Emitting one block: the expected output of `S2 ++ '\n' ++ lb` is the
kept lines of `lb` (most recent first, truncated) followed by the expected
output of `S2` under the decremented cap. -/
theorem expectedOut_split (search : Option Bytes) (e : Option Nat)
    (S2 lb : Bytes) :
    expectedOut search e (S2 ++ NL :: lb) =
      joinTerm (takeEnt e ((splitNL lb).reverse.filter (lineKept search))) ++
      expectedOut search
        (e.map (fun k =>
          k - (takeEnt e ((splitNL lb).reverse.filter (lineKept search))).length))
        S2 := by
  simp only [expectedOut, expectedLines]
  rw [splitNL_append, List.reverse_append, List.filter_append, takeEnt_append,
    joinTerm_append]

/-! ## Newline-free windows are bounded by the longest line -/

theorem prefix_avoid {x : Nat} :
    ∀ {s a b : Bytes}, s <+: a ++ x :: b → x ∉ s → s <+: a := by
  intro s a
  induction a generalizing s with
  | nil =>
    intro b hp hx
    cases s with
    | nil => exact List.nil_prefix
    | cons c s2 =>
      rw [List.nil_append, List.cons_prefix_cons] at hp
      exact absurd (hp.1 ▸ List.mem_cons_self c s2) hx
  | cons d a2 ih =>
    intro b hp hx
    cases s with
    | nil => exact List.nil_prefix
    | cons c s2 =>
      rw [List.cons_append, List.cons_prefix_cons] at hp
      rw [hp.1, List.cons_prefix_cons]
      exact ⟨rfl, ih hp.2 (fun hm => hx (List.mem_cons_of_mem c hm))⟩

theorem infix_avoid {x : Nat} :
    ∀ {s a b : Bytes}, s <:+: a ++ x :: b → x ∉ s → s <:+: a ∨ s <:+: b := by
  intro s a
  induction a generalizing s with
  | nil =>
    intro b hi hx
    rw [List.nil_append, List.infix_cons_iff] at hi
    rcases hi with hp | hi
    · cases s with
      | nil => exact Or.inr (List.nil_infix)
      | cons c s2 =>
        rw [List.cons_prefix_cons] at hp
        exact absurd (hp.1 ▸ List.mem_cons_self c s2) hx
    · exact Or.inr hi
  | cons d a2 ih =>
    intro b hi hx
    rw [List.cons_append, List.infix_cons_iff] at hi
    rcases hi with hp | hi
    · exact Or.inl (prefix_avoid (by simpa using hp) hx).isInfix
    · rcases ih hi hx with h | h
      · exact Or.inl (h.trans (List.infix_cons List.infix_rfl))
      · exact Or.inr h

theorem exists_split_first {x : Nat} {l : Bytes} (h : x ∈ l) :
    ∃ a b, l = a ++ x :: b ∧ x ∉ a := by
  induction l with
  | nil => cases h
  | cons y t ih =>
    by_cases hy : y = x
    · exact ⟨[], t, by rw [hy]; rfl, List.not_mem_nil x⟩
    · have hx : x ∈ t := by
        rcases List.mem_cons.mp h with h' | h'
        · exact absurd h'.symm hy
        · exact h'
      obtain ⟨a, b, rfl, hna⟩ := ih hx
      exact ⟨y :: a, b, rfl, by
        intro hm
        rcases List.mem_cons.mp hm with h' | h'
        · exact hy h'.symm
        · exact hna h'⟩

/-- A newline-free infix of `f` is no longer than the longest line of
`f`. -/
theorem nlfree_infix_le (m : Nat) :
    ∀ n : Nat, ∀ f s : Bytes, f.length ≤ n → s <:+: f → NL ∉ s →
      (∀ ln ∈ splitNL f, ln.length ≤ m) → s.length ≤ m := by
  intro n
  induction n with
  | zero =>
    intro f s hf hs h10 hln
    have hf0 : f = [] := List.length_eq_zero.mp (Nat.le_zero.mp hf)
    subst hf0
    have : s = [] := List.eq_nil_of_infix_nil hs
    subst this
    exact Nat.zero_le m
  | succ n ih =>
    intro f s hf hs h10 hln
    by_cases hNL : NL ∈ f
    · obtain ⟨a, b, rfl, hNa⟩ := exists_split_first hNL
      rcases infix_avoid hs h10 with hsa | hsb
      · have ha : a ∈ splitNL (a ++ NL :: b) := by
          rw [splitNL_append, splitNL_nlfree a hNa]
          exact List.mem_append_left _ (List.mem_singleton_self a)
        exact hsa.length_le.trans (hln a ha)
      · refine ih b s ?_ hsb h10 ?_
        · simp only [List.length_append, List.length_cons] at hf
          omega
        · intro ln hln2
          refine hln ln ?_
          rw [splitNL_append]
          exact List.mem_append_right _ hln2
    · have heq : splitNL f = [f] := splitNL_nlfree f hNL
      exact hs.length_le.trans (hln f (by rw [heq]; exact List.mem_singleton_self f))

/-- A newline-free byte window of `f` is no longer than the longest
line. -/
theorem nlfree_window_le {f : Bytes} {m : Nat}
    (hln : ∀ ln ∈ splitNL f, ln.length ≤ m) {a b : Nat} (hab : a ≤ b)
    (hb : b ≤ f.length) (h10 : NL ∉ slice f a b) : b - a ≤ m := by
  have h := nlfree_infix_le m f.length f (slice f a b) le_rfl
    (slice_isInfix f a b) h10 hln
  rwa [slice_length f a b hab hb] at h

/-! ## Step lemmas for the main loop -/

theorem checkFileIntegrity_ok (env : Env) (st : RState)
    (h : env.mtimes st.statCount ≤ st.initialMtimeMs) :
    checkFileIntegrity env st =
      ({ st with statCount := st.statCount + 1
                 events := st.events ++ [Event.stat] }, none) := by
  simp only [checkFileIntegrity]
  rw [if_neg (by simpa using Nat.not_lt.mpr h)]

theorem validateUtf8Chunk_ok {chunk : Bytes}
    (h : utf8Run .clean chunk = some .clean) :
    validateUtf8Chunk UTF8Validator.start chunk false =
      .ok (chunk, UTF8Validator.start) := by
  simp [validateUtf8Chunk, UTF8Validator.start, h]

/-- The ternary filter of `processBlockWithNewline` is `lineKept`. -/
theorem filter_match_eq_lineKept (search : Option Bytes)
    (decoded : List Bytes) :
    (match search with
      | some t =>
        if t.isEmpty then decoded.filter (fun line => !line.isEmpty)
        else decoded.filter (fun line => includesB line t)
      | none => decoded.filter (fun line => !line.isEmpty)) =
      decoded.filter (lineKept search) := by
  cases search with
  | none => rfl
  | some t =>
    dsimp only
    by_cases ht : t.isEmpty
    · rw [if_pos ht]
      refine List.filter_congr fun a _ => ?_
      simp [lineKept, ht]
    · rw [if_neg ht]
      refine List.filter_congr fun a _ => ?_
      simp [lineKept, ht]

/-- The conditional truncation of `processBlockWithNewline` is
`takeEnt`. -/
theorem truncation_eq_takeEnt (e : Option Nat) (P : List Bytes) :
    (match e with
      | none => P
      | some k => if k < P.length then P.take k else P) = takeEnt e P := by
  cases e with
  | none => rfl
  | some k =>
    simp only [takeEnt]
    split
    · rfl
    · rw [List.take_of_length_le (by omega)]

theorem flatten_if_yield (o : List Bytes) (kept : List Bytes) :
    (if kept.length ≠ 0 then o ++ [joinNL kept ++ [NL]] else o).flatten =
      o.flatten ++ joinTerm kept := by
  by_cases h : kept.length = 0
  · rw [if_neg (by omega)]
    have : kept = [] := List.length_eq_zero.mp h
    subst this
    simp [joinTerm]
  · rw [if_pos h, List.flatten_append,
      joinTerm_eq_joinNL kept (by intro hk; exact h (by rw [hk]; rfl))]
    simp

theorem lineKept_nil (search : Option Bytes) : lineKept search [] = false := by
  cases search with
  | none => rfl
  | some t =>
    simp only [lineKept]
    by_cases ht : t.isEmpty
    · rw [if_pos ht]; rfl
    · rw [if_neg ht]
      cases t with
      | nil => exact absurd rfl ht
      | cons x xs => rfl

theorem takeEnt_singleton (e : Option Nat) (l : Bytes)
    (he : entriesPos e = true) : takeEnt e [l] = [l] := by
  cases e with
  | none => rfl
  | some k =>
    simp only [entriesPos, decide_eq_true_eq] at he
    simp only [takeEnt]
    cases k with
    | zero => omega
    | succ k => simp

/-- Exit analysis: the expected output of an empty virtual string is
empty. -/
theorem expectedOut_nil (search : Option Bytes) (e : Option Nat) :
    expectedOut search e [] = [] := by
  simp [expectedOut, expectedLines, splitNL, lineKept_nil]
  cases e <;> simp [takeEnt, joinTerm]

theorem expectedOut_zero (search : Option Bytes) (s : Bytes) :
    expectedOut search (some 0) s = [] := by
  simp [expectedOut, expectedLines, takeEnt, joinTerm]

set_option maxHeartbeats 1000000

theorem readBlocksLoop_master (env : Env)
    (HB : 1 ≤ env.opts.blockSize)
    (Hlines : ∀ ln ∈ splitNL env.file, ln.length ≤ env.opts.memBuffer) :
    ∀ fuel c (l : Bytes) (e : Option Nat) (buf : Bytes) (o : List Bytes)
      (ev : List Event) (k m0 : Nat),
      c < fuel →
      c + l.length ≤ env.file.length →
      l = slice env.file c (c + l.length) →
      NL ∉ l →
      utf8Run .clean (slice env.file 0 (c + l.length)) = some .clean →
      buf.length = env.opts.blockSize →
      (∀ j : Nat, env.mtimes j ≤ m0) →
      (readBlocksLoop env fuel
          ⟨l, buf, c, e, UTF8Validator.start, m0, k, o, ev⟩).2 = none ∧
        (readBlocksLoop env fuel
            ⟨l, buf, c, e, UTF8Validator.start, m0, k, o, ev⟩).1.output.flatten =
          o.flatten ++ expectedOut env.search e (slice env.file 0 (c + l.length)) := by
  intro fuel
  induction fuel with
  | zero =>
    intro c l e buf o ev k m0 hfuel
    exact absurd hfuel (Nat.not_lt_zero c)
  | succ fuel ih =>
    intro c l e buf o ev k m0 hfuel hcl hl hnl hvalid hbuf hm
    by_cases hguard : 0 < c ∧ entriesPos e = true
    · obtain ⟨hc, hE⟩ := hguard
      have hcle : c ≤ env.file.length := by omega
      have hr1 : 1 ≤ min env.opts.blockSize c := le_min HB hc
      have hrc : min env.opts.blockSize c ≤ c := min_le_right _ _
      have hsum : c - min env.opts.blockSize c + min env.opts.blockSize c = c := by
        omega
      simp only [readBlocksLoop]
      rw [if_pos (show (0:Nat) < c ∧ entriesPos e = true from ⟨hc, hE⟩)]
      rw [checkFileIntegrity_ok env _ (hm k)]
      dsimp only
      rw [hsum]
      have hdlen : (slice env.file (c - env.opts.blockSize ⊓ c) c).length =
          env.opts.blockSize ⊓ c := by
        rw [slice_length env.file _ _ (by omega) hcle]
        omega
      have hblock : List.take (env.opts.blockSize ⊓ c)
          (writeBuf buf (slice env.file (c - env.opts.blockSize ⊓ c) c)) =
          slice env.file (c - env.opts.blockSize ⊓ c) c := by
        have h := writeBuf_take buf (slice env.file (c - env.opts.blockSize ⊓ c) c)
        rwa [hdlen] at h
      have hbuf2 : (writeBuf buf
          (slice env.file (c - env.opts.blockSize ⊓ c) c)).length =
          env.opts.blockSize := by
        rw [writeBuf_length buf _ (by rw [hdlen, hbuf]; omega)]
        exact hbuf
      rw [hblock]
      cases hidx : List.findIdx? (fun b => b == NL)
          (slice env.file (c - env.opts.blockSize ⊓ c) c) with
      | none =>
        have hnlblock : NL ∉ slice env.file (c - env.opts.blockSize ⊓ c) c := by
          intro hmem
          have h0 := List.findIdx?_eq_none_iff.mp hidx NL hmem
          simp at h0
        have hl3 : slice env.file (c - env.opts.blockSize ⊓ c) c ++ l =
            slice env.file (c - env.opts.blockSize ⊓ c) (c + l.length) := by
          conv_lhs => rw [hl]
          exact slice_append_slice env.file (by omega) (by omega)
        have hnl3 : NL ∉ slice env.file (c - env.opts.blockSize ⊓ c)
            (c + l.length) := by
          rw [← hl3]
          intro hmem
          rcases List.mem_append.mp hmem with h | h
          · exact hnlblock h
          · exact hnl h
        have hlen3 : (slice env.file (c - env.opts.blockSize ⊓ c) c ++ l).length =
            c + l.length - (c - env.opts.blockSize ⊓ c) := by
          rw [hl3, slice_length env.file _ _ (by omega) hcl]
        have hwin : c + l.length - (c - env.opts.blockSize ⊓ c) ≤
            env.opts.memBuffer :=
          nlfree_window_le Hlines (by omega) hcl hnl3
        rw [if_neg (by rw [hlen3]; omega)]
        have hlen_eq : c - env.opts.blockSize ⊓ c +
            (slice env.file (c - env.opts.blockSize ⊓ c) c ++ l).length =
            c + l.length := by
          rw [hlen3]; omega
        have hres := ih (c - env.opts.blockSize ⊓ c)
          (slice env.file (c - env.opts.blockSize ⊓ c) c ++ l) e
          (writeBuf buf (slice env.file (c - env.opts.blockSize ⊓ c) c)) o
          (ev ++ [Event.stat] ++
            [Event.readMain (c - env.opts.blockSize ⊓ c) (env.opts.blockSize ⊓ c)])
          (k + 1) m0
          (by omega)
          (by rw [hlen_eq]; exact hcl)
          (by rw [hlen_eq]; exact hl3)
          (by rw [hl3]; exact hnl3)
          (by rw [hlen_eq]; exact hvalid)
          hbuf2 hm
        rw [hlen_eq] at hres
        exact hres
      | some p =>
        obtain ⟨hplt, hpbyte, hpfirst⟩ := List.findIdx?_eq_some_iff_getElem.mp hidx
        have hplen : (slice env.file (c - env.opts.blockSize ⊓ c) c).length =
            env.opts.blockSize ⊓ c := hdlen
        have hplt2 : p < env.opts.blockSize ⊓ c := by rw [← hplen]; exact hplt
        have hbyte : env.file.getD (c - env.opts.blockSize ⊓ c + p) 0 = NL := by
          have h1 : (slice env.file (c - env.opts.blockSize ⊓ c) c).getD p 0 =
              env.file.getD (c - env.opts.blockSize ⊓ c + p) 0 :=
            slice_getD env.file (by omega) (by omega)
          rw [← h1, List.getD_eq_getElem _ 0 hplt]
          simpa using hpbyte
        -- the new leftover is the part of the block before the newline
        have htakep : (slice env.file (c - env.opts.blockSize ⊓ c) c).take p =
            slice env.file (c - env.opts.blockSize ⊓ c)
              (c - env.opts.blockSize ⊓ c + p) := by
          simp only [slice, List.take_take]
          congr 1
          omega
        have htakepw : (writeBuf buf
            (slice env.file (c - env.opts.blockSize ⊓ c) c)).take p =
            slice env.file (c - env.opts.blockSize ⊓ c)
              (c - env.opts.blockSize ⊓ c + p) := by
          rw [writeBuf, List.take_append_eq_append_take, hdlen,
            show p - (env.opts.blockSize ⊓ c) = 0 by omega, List.take_zero,
            List.append_nil, htakep]
        -- the decoded payload is the rest of the virtual string
        have hdropp : (slice env.file (c - env.opts.blockSize ⊓ c) c).drop (p + 1) =
            slice env.file (c - env.opts.blockSize ⊓ c + p + 1) c := by
          simp only [slice, List.drop_take, List.drop_drop]
          congr 1
          omega
        have hlb : slice env.file (c - env.opts.blockSize ⊓ c + p + 1) c ++ l =
            slice env.file (c - env.opts.blockSize ⊓ c + p + 1) (c + l.length) := by
          conv_lhs => rw [hl]
          exact slice_append_slice env.file (by omega) (by omega)
        have hdecomp : slice env.file 0 (c + l.length) =
            slice env.file 0 (c - env.opts.blockSize ⊓ c + p) ++ NL ::
              slice env.file (c - env.opts.blockSize ⊓ c + p + 1) (c + l.length) := by
          rw [← slice_append_slice env.file
            (Nat.zero_le (c - env.opts.blockSize ⊓ c + p)) (by omega : c - env.opts.blockSize ⊓ c + p ≤ c + l.length)]
          congr 1
          rw [slice_cons env.file (by omega) (by omega), hbyte]
        rw [hdecomp] at hvalid
        obtain ⟨hvS2, hvLB⟩ := utf8Run_split_nl hvalid
        -- reduce processBlockWithNewline
        simp only [processBlockWithNewline]
        rw [hblock, hdropp, hlb, validateUtf8Chunk_ok hvLB]
        dsimp only
        rw [htakepw, filter_match_eq_lineKept, truncation_eq_takeEnt]
        have hnl2 : NL ∉ slice env.file (c - env.opts.blockSize ⊓ c)
            (c - env.opts.blockSize ⊓ c + p) := by
          rw [← htakep]
          intro hmem
          obtain ⟨i, hilt, hival⟩ := List.mem_iff_getElem.mp hmem
          have hi2 : i < p := by
            simp only [List.length_take] at hilt
            omega
          have hib : i < (slice env.file (c - env.opts.blockSize ⊓ c)
              c).length := by omega
          have hbl : (slice env.file (c - env.opts.blockSize ⊓ c) c)[i] =
              NL := by
            rw [← hival]
            exact (List.getElem_take _).symm
          exact hpfirst i hi2 (by simp [hbl])
        have hlen_l3 : (slice env.file (c - env.opts.blockSize ⊓ c)
            (c - env.opts.blockSize ⊓ c + p)).length = p := by
          rw [slice_length env.file _ _ (by omega) (by omega)]
          omega
        by_cases hkept : (takeEnt e (List.filter (lineKept env.search)
            (splitNL (slice env.file (c - env.opts.blockSize ⊓ c + p + 1)
              (c + List.length l))).reverse)).length ≠ 0
        · rw [if_pos hkept]
          have hres := ih (c - env.opts.blockSize ⊓ c)
            (slice env.file (c - env.opts.blockSize ⊓ c)
              (c - env.opts.blockSize ⊓ c + p))
            (Option.map (fun k0 => k0 - (takeEnt e (List.filter (lineKept env.search)
              (splitNL (slice env.file (c - env.opts.blockSize ⊓ c + p + 1)
                (c + List.length l))).reverse)).length) e)
            (writeBuf buf (slice env.file (c - env.opts.blockSize ⊓ c) c))
            (o ++ [joinNL (takeEnt e (List.filter (lineKept env.search)
              (splitNL (slice env.file (c - env.opts.blockSize ⊓ c + p + 1)
                (c + List.length l))).reverse)) ++ [NL]])
            (ev ++ [Event.stat] ++
              [Event.readMain (c - env.opts.blockSize ⊓ c) (env.opts.blockSize ⊓ c)])
            (k + 1) m0
            (by omega)
            (by rw [hlen_l3]; omega)
            (by rw [hlen_l3])
            hnl2
            (by rw [hlen_l3]; exact hvS2)
            hbuf2 hm
          rw [hlen_l3] at hres
          refine ⟨hres.1, hres.2.trans ?_⟩
          rw [hdecomp, expectedOut_split, List.flatten_append]
          simp only [List.flatten_cons, List.flatten_nil, List.append_nil]
          rw [joinTerm_eq_joinNL _ (by
            intro h0
            exact hkept (by rw [h0]; rfl))]
          simp [List.append_assoc]
        · rw [if_neg hkept]
          have hres := ih (c - env.opts.blockSize ⊓ c)
            (slice env.file (c - env.opts.blockSize ⊓ c)
              (c - env.opts.blockSize ⊓ c + p))
            (Option.map (fun k0 => k0 - (takeEnt e (List.filter (lineKept env.search)
              (splitNL (slice env.file (c - env.opts.blockSize ⊓ c + p + 1)
                (c + List.length l))).reverse)).length) e)
            (writeBuf buf (slice env.file (c - env.opts.blockSize ⊓ c) c))
            o
            (ev ++ [Event.stat] ++
              [Event.readMain (c - env.opts.blockSize ⊓ c) (env.opts.blockSize ⊓ c)])
            (k + 1) m0
            (by omega)
            (by rw [hlen_l3]; omega)
            (by rw [hlen_l3])
            hnl2
            (by rw [hlen_l3]; exact hvS2)
            hbuf2 hm
          rw [hlen_l3] at hres
          refine ⟨hres.1, hres.2.trans ?_⟩
          rw [hdecomp, expectedOut_split]
          have hk0 : takeEnt e (List.filter (lineKept env.search)
              (splitNL (slice env.file (c - env.opts.blockSize ⊓ c + p + 1)
                (c + List.length l))).reverse) = [] :=
            List.length_eq_zero.mp (not_ne_iff.mp hkept)
          rw [hk0]
          simp [joinTerm_nil]
    · -- exit branch: the loop stops and only the final leftover may be yielded
      simp only [readBlocksLoop]
      rw [if_neg hguard]
      by_cases hE : entriesPos e = true
      · have hc0 : c = 0 := by
          rcases Nat.eq_zero_or_pos c with h | h
          · exact h
          · exact absurd ⟨h, hE⟩ hguard
        subst hc0
        have hS : slice env.file 0 (0 + l.length) = l := hl.symm
        rw [hS] at hvalid ⊢
        simp only [finalLeftover]
        by_cases hcond : l.length ≠ 0 ∧ entriesPos e = true ∧
            (env.search = none ∨ includesB l (env.search.getD []) = true)
        · rw [if_pos hcond]
          rw [validateUtf8Chunk_ok hvalid]
          refine ⟨rfl, ?_⟩
          show (o ++ [l ++ [NL]]).flatten = o.flatten ++ expectedOut env.search e l
          rw [List.flatten_append]
          congr 1
          show (l ++ [NL]) ++ [].flatten = expectedOut env.search e l
          rw [expectedOut, expectedLines, splitNL_nlfree l hnl]
          have hlne : l ≠ [] := by
            intro h0
            exact hcond.1 (by rw [h0]; rfl)
          have hkeep : lineKept env.search l = true := by
            rcases hs : env.search with _ | t
            · simp only [lineKept, Bool.not_eq_true']
              cases l with
              | nil => exact absurd rfl hlne
              | cons x xs => rfl
            · have hinc : includesB l t = true := by
                rcases hcond.2.2 with hnone | hinc
                · rw [hs] at hnone; cases hnone
                · rw [hs] at hinc; simpa using hinc
              simp only [lineKept]
              by_cases ht : t.isEmpty
              · rw [if_pos ht]
                cases l with
                | nil => exact absurd rfl hlne
                | cons x xs => rfl
              · rw [if_neg ht]
                exact hinc
          simp only [List.reverse_cons, List.reverse_nil, List.nil_append,
            List.filter_cons, hkeep, if_true, List.filter_nil]
          rw [takeEnt_singleton e l hcond.2.1]
          simp [joinTerm]
        · rw [if_neg hcond]
          refine ⟨rfl, ?_⟩
          have hexp : expectedOut env.search e l = [] := by
            rcases Decidable.not_and_iff_or_not.mp hcond with h1 | h23
            · have hl0 : l = [] := by
                rcases l with _ | _
                · rfl
                · exact absurd (by simp) h1
              rw [hl0, expectedOut_nil]
            · rcases Decidable.not_and_iff_or_not.mp h23 with h2 | h3
              · exact absurd hE h2
              · have hsome : ∃ t, env.search = some t ∧
                    includesB l t = false := by
                  rcases hs : env.search with _ | t
                  · exact absurd (Or.inl rfl) (hs ▸ h3)
                  · refine ⟨t, rfl, ?_⟩
                    rcases hb : includesB l t with _ | _
                    · rfl
                    · exact absurd (Or.inr (by rw [hs]; simpa using hb)) h3
                obtain ⟨t, hst, hfalse⟩ := hsome
                rw [expectedOut, expectedLines, splitNL_nlfree l hnl, hst]
                have hkeep : lineKept (some t) l = false := by
                  simp only [lineKept]
                  by_cases ht : t.isEmpty
                  · have : t = [] := by
                      cases t
                      · rfl
                      · exact absurd ht (by simp)
                    subst this
                    have : includesB l [] = true := by
                      cases l <;> simp [includesB, leadsB]
                    rw [this] at hfalse
                    cases hfalse
                  · rw [if_neg ht]
                    exact hfalse
                simp only [List.reverse_cons, List.reverse_nil, List.nil_append,
                  List.filter_cons, hkeep, List.filter_nil]
                cases e <;> simp [takeEnt, joinTerm]
          rw [hexp]
          simp
      · -- the entry cap is exhausted: e = some 0
        have he0 : e = some 0 := by
          rcases e with _ | k0
          · exact absurd rfl hE
          · rcases k0 with _ | k0
            · rfl
            · exact absurd (by simp [entriesPos]) hE
        subst he0
        simp only [finalLeftover]
        rw [if_neg (fun h => hE h.2.1)]
        refine ⟨rfl, ?_⟩
        rw [expectedOut_zero]
        simp

/-- Correctness of a whole `readBlocks` run on a valid-UTF-8 file none of
whose physical lines exceeds the leftover ceiling, under an unmodified
file: the run succeeds and streams exactly the expected bytes. -/
theorem readBlocks_correct (env : Env) (HB : 1 ≤ env.opts.blockSize)
    (Hlines : ∀ ln ∈ splitNL env.file, ln.length ≤ env.opts.memBuffer)
    (Hvalid : utf8Run .clean env.file = some .clean)
    (Hm : ∀ j : Nat, env.mtimes j ≤ env.mtimes 0) :
    (readBlocks env).2 = none ∧
      (readBlocks env).1.output.flatten =
        expectedOut env.search env.numEntries env.file := by
  have h := readBlocksLoop_master env HB Hlines (env.file.length + 1)
    env.file.length [] env.numEntries (List.replicate env.opts.blockSize 0)
    [] [Event.stat] 1 (env.mtimes 0)
    (by omega)
    (by simp)
    (by simp [slice_nil])
    (by simp [NL])
    (by simpa [slice_self] using Hvalid)
    (by simp)
    Hm
  simp only [List.length_nil, Nat.add_zero, slice_self, List.flatten_nil,
    List.nil_append] at h
  exact h

/-! ## Physical lines versus split pieces -/

theorem filter_physicalLines (s : Bytes) (p : Bytes → Bool)
    (hp : p [] = false) :
    (physicalLines s).reverse.filter p = (splitNL s).reverse.filter p := by
  simp only [physicalLines]
  split
  · next hlast =>
    have hne : splitNL s ≠ [] := splitNL_ne_nil s
    have hdec : (splitNL s).dropLast ++ [[]] = splitNL s := by
      have h := List.dropLast_append_getLast hne
      rw [List.getLast?_eq_getLast _ hne] at hlast
      rw [Option.some_inj.mp hlast] at h
      exact h
    conv_rhs => rw [← hdec]
    rw [List.reverse_append, List.filter_append]
    simp [hp]
  · rfl

theorem mem_physicalLines_or_nil {s : Bytes} {ln : Bytes}
    (h : ln ∈ splitNL s) : ln ∈ physicalLines s ∨ ln = [] := by
  simp only [physicalLines]
  split
  · next hlast =>
    have hne : splitNL s ≠ [] := splitNL_ne_nil s
    have hdec : (splitNL s).dropLast ++ [[]] = splitNL s := by
      have hd := List.dropLast_append_getLast hne
      rw [List.getLast?_eq_getLast _ hne] at hlast
      rw [Option.some_inj.mp hlast] at hd
      exact hd
    rw [← hdec] at h
    rcases List.mem_append.mp h with h1 | h1
    · exact Or.inl h1
    · exact Or.inr (List.mem_singleton.mp h1)
  · exact Or.inl h

/-! ## Claim C1 -/

/-- Claim C1, as stated, is false: the reader drops empty physical lines
(file `"a\n\nb\n"` yields `"b\na\n"`, not `"b\n\na\n"`), and when a single
line overflows the leftover ceiling the backward scan takes the *first*
newline of its block, merging the preceding line into the oversized one
(file `"a\nb\ncccccccc"` with block size 4 and ceiling 5 yields
`"b\ncccccccc\na\n"`, not `"cccccccc\nb\na\n"`). -/
theorem claim1_counterexample :
    ((readBlocks ⟨[97, 10, 10, 98, 10], ⟨4, 8⟩, none, none,
        fun _ => 0⟩).2 = none ∧
      (readBlocks ⟨[97, 10, 10, 98, 10], ⟨4, 8⟩, none, none,
          fun _ => 0⟩).1.output.flatten ≠
        claimedFullOut [97, 10, 10, 98, 10]) ∧
    ((readBlocks ⟨[97, 10, 98, 10, 99, 99, 99, 99, 99, 99, 99, 99],
        ⟨4, 5⟩, none, none, fun _ => 0⟩).2 = none ∧
      (readBlocks ⟨[97, 10, 98, 10, 99, 99, 99, 99, 99, 99, 99, 99],
          ⟨4, 5⟩, none, none, fun _ => 0⟩).1.output.flatten ≠
        claimedFullOut [97, 10, 98, 10, 99, 99, 99, 99, 99, 99, 99, 99]) := by
  decide

/-- Claim C1 (amended): for every valid-UTF-8 file whose physical lines all
fit the leftover ceiling, and every block size `B` with `0 < B < memBuffer`,
a full read with no entry cap and no search term succeeds and produces
exactly the file's *non-empty* physical lines in reverse physical order,
each terminator-suffixed — a value independent of `B`. -/
theorem claim1_amended (file : Bytes) (B M : Nat) (mtimes : Nat → Nat)
    (HB : 1 ≤ B) (_HBM : B < M)
    (Hlines : ∀ ln ∈ physicalLines file, ln.length ≤ M)
    (Hvalid : utf8Run .clean file = some .clean)
    (Hm : ∀ j : Nat, mtimes j ≤ mtimes 0) :
    (readBlocks ⟨file, ⟨B, M⟩, none, none, mtimes⟩).2 = none ∧
      (readBlocks ⟨file, ⟨B, M⟩, none, none, mtimes⟩).1.output.flatten =
        joinTerm ((physicalLines file).reverse.filter
          (fun line => !line.isEmpty)) := by
  have Hlines2 : ∀ ln ∈ splitNL file, ln.length ≤ M := by
    intro ln hln
    rcases mem_physicalLines_or_nil hln with h | h
    · exact Hlines ln h
    · rw [h]; exact Nat.zero_le M
  have h := readBlocks_correct ⟨file, ⟨B, M⟩, none, none, mtimes⟩ HB Hlines2
    Hvalid Hm
  refine ⟨h.1, h.2.trans ?_⟩
  rw [expectedOut, expectedLines, filter_physicalLines file _ rfl]
  rfl

/-- Witness for the amended claim C1 at a concrete file and block size. -/
theorem claim1_amended_witness :
    (readBlocks ⟨[97, 10, 98, 10], ⟨2, 3⟩, none, none, fun _ => 0⟩).2 =
        none ∧
      (readBlocks ⟨[97, 10, 98, 10], ⟨2, 3⟩, none, none,
          fun _ => 0⟩).1.output.flatten =
        joinTerm ((physicalLines [97, 10, 98, 10]).reverse.filter
          (fun line => !line.isEmpty)) :=
  claim1_amended [97, 10, 98, 10] 2 3 (fun _ => 0) (by decide) (by decide)
    (by decide) (by decide) (fun j => le_rfl)

/-! ## Claim C7 -/

/-- Claim C7: for the file `"line3\nline2\nline1"` (no trailing
terminator), a full read with no entry cap and no search term — at any
block size `0 < B < M` with the ceiling `M` at least one line long — emits
exactly `"line1\nline2\nline3\n"`: the final leftover is emitted as the
file's first physical line with a terminator appended. -/
theorem claim7_no_trailing_terminator (B M : Nat) (mtimes : Nat → Nat)
    (HB : 1 ≤ B) (_HBM : B < M) (HM : 5 ≤ M)
    (Hm : ∀ j : Nat, mtimes j ≤ mtimes 0) :
    (readBlocks ⟨[108, 105, 110, 101, 51, 10, 108, 105, 110, 101, 50, 10,
        108, 105, 110, 101, 49], ⟨B, M⟩, none, none, mtimes⟩).2 = none ∧
      (readBlocks ⟨[108, 105, 110, 101, 51, 10, 108, 105, 110, 101, 50, 10,
          108, 105, 110, 101, 49], ⟨B, M⟩, none, none,
          mtimes⟩).1.output.flatten =
        [108, 105, 110, 101, 49, 10, 108, 105, 110, 101, 50, 10,
          108, 105, 110, 101, 51, 10] := by
  have Hlines : ∀ ln ∈ splitNL [108, 105, 110, 101, 51, 10, 108, 105, 110,
      101, 50, 10, 108, 105, 110, 101, 49], ln.length ≤ M := by
    have h5 : ∀ ln ∈ splitNL [108, 105, 110, 101, 51, 10, 108, 105, 110,
        101, 50, 10, 108, 105, 110, 101, 49], ln.length ≤ 5 := by decide
    exact fun ln hln => le_trans (h5 ln hln) HM
  have h := readBlocks_correct ⟨_, ⟨B, M⟩, none, none, mtimes⟩ HB Hlines
    (show utf8Run Utf8State.clean [108, 105, 110, 101, 51, 10, 108, 105, 110,
      101, 50, 10, 108, 105, 110, 101, 49] = some Utf8State.clean by decide)
    Hm
  refine ⟨h.1, h.2.trans ?_⟩
  show expectedOut none none [108, 105, 110, 101, 51, 10, 108, 105, 110, 101,
    50, 10, 108, 105, 110, 101, 49] = _
  decide

/-- Witness for claim C7 at a concrete block size. -/
theorem claim7_witness :
    (readBlocks ⟨[108, 105, 110, 101, 51, 10, 108, 105, 110, 101, 50, 10,
        108, 105, 110, 101, 49], ⟨4, 8⟩, none, none, fun _ => 0⟩).2 =
        none ∧
      (readBlocks ⟨[108, 105, 110, 101, 51, 10, 108, 105, 110, 101, 50, 10,
          108, 105, 110, 101, 49], ⟨4, 8⟩, none, none,
          fun _ => 0⟩).1.output.flatten =
        [108, 105, 110, 101, 49, 10, 108, 105, 110, 101, 50, 10,
          108, 105, 110, 101, 51, 10] :=
  claim7_no_trailing_terminator 4 8 (fun _ => 0) (by decide) (by decide)
    (by decide) (fun j => le_rfl)

/-! ## Claim C2 -/

/-- Claim C2 fails on the code: for the file `"a\nb\ncccccccc"` (block
size 4, ceiling 5), the search term `"b"` and no entry cap, exactly one
line matches (`"b"`), so the claim demands the single entry `"b\n"`; the
reader instead emits the bytes `"b\ncccccccc\n"` — two physical lines in
one entry, in non-reverse order — because the backward scan of the
oversized-line path returns the first newline of its block rather than the
last. -/
theorem claim2_failing_eval :
    (readBlocks ⟨[97, 10, 98, 10, 99, 99, 99, 99, 99, 99, 99, 99], ⟨4, 5⟩,
        none, some [98], fun _ => 0⟩).2 = none ∧
      (readBlocks ⟨[97, 10, 98, 10, 99, 99, 99, 99, 99, 99, 99, 99], ⟨4, 5⟩,
          none, some [98], fun _ => 0⟩).1.output.flatten =
        [98, 10, 99, 99, 99, 99, 99, 99, 99, 99, 10] ∧
      expectedOut (some [98]) none
          [97, 10, 98, 10, 99, 99, 99, 99, 99, 99, 99, 99] = [98, 10] ∧
      (readBlocks ⟨[97, 10, 98, 10, 99, 99, 99, 99, 99, 99, 99, 99], ⟨4, 5⟩,
          none, some [98], fun _ => 0⟩).1.output.flatten ≠
        expectedOut (some [98]) none
          [97, 10, 98, 10, 99, 99, 99, 99, 99, 99, 99, 99] := by
  decide

/-! ## Claim C3 -/

/-- Claim C3 fails on the code: in the oversized-line state reached on the
file `"a\nb\ncccccccc"` (block size 4, ceiling 5, read offset 4, leftover
`"cccccccc"`), with the search term `"q"` that does not occur in the
resolved range `[2, 12)`, `handleLargeLeftover` emits nothing and keeps the
entry counter — but leaves `curPosition` at 4 instead of moving it to
`startPos - 1 = 1` (the position update sits inside the match-found branch
only; the superseded variant of the reader set it unconditionally). -/
theorem claim3_failing_eval :
    (findNewlinePositionBackward
        ⟨[97, 10, 98, 10, 99, 99, 99, 99, 99, 99, 99, 99], ⟨4, 5⟩, none,
          some [113], fun _ => 0⟩ 5
        ⟨[99, 99, 99, 99, 99, 99, 99, 99], [99, 99, 99, 99], 4, none,
          UTF8Validator.start, 0, 3, [], []⟩ 4).2.2 = 2 ∧
      (handleLargeLeftover
          ⟨[97, 10, 98, 10, 99, 99, 99, 99, 99, 99, 99, 99], ⟨4, 5⟩, none,
            some [113], fun _ => 0⟩
          ⟨[99, 99, 99, 99, 99, 99, 99, 99], [99, 99, 99, 99], 4, none,
            UTF8Validator.start, 0, 3, [], []⟩ 4).2 = none ∧
      (handleLargeLeftover
          ⟨[97, 10, 98, 10, 99, 99, 99, 99, 99, 99, 99, 99], ⟨4, 5⟩, none,
            some [113], fun _ => 0⟩
          ⟨[99, 99, 99, 99, 99, 99, 99, 99], [99, 99, 99, 99], 4, none,
            UTF8Validator.start, 0, 3, [], []⟩ 4).1.output = [] ∧
      (handleLargeLeftover
          ⟨[97, 10, 98, 10, 99, 99, 99, 99, 99, 99, 99, 99], ⟨4, 5⟩, none,
            some [113], fun _ => 0⟩
          ⟨[99, 99, 99, 99, 99, 99, 99, 99], [99, 99, 99, 99], 4, none,
            UTF8Validator.start, 0, 3, [], []⟩ 4).1.entriesRemaining =
        none ∧
      (handleLargeLeftover
          ⟨[97, 10, 98, 10, 99, 99, 99, 99, 99, 99, 99, 99], ⟨4, 5⟩, none,
            some [113], fun _ => 0⟩
          ⟨[99, 99, 99, 99, 99, 99, 99, 99], [99, 99, 99, 99], 4, none,
            UTF8Validator.start, 0, 3, [], []⟩ 4).1.curPosition = 4 ∧
      (handleLargeLeftover
          ⟨[97, 10, 98, 10, 99, 99, 99, 99, 99, 99, 99, 99], ⟨4, 5⟩, none,
            some [113], fun _ => 0⟩
          ⟨[99, 99, 99, 99, 99, 99, 99, 99], [99, 99, 99, 99], 4, none,
            UTF8Validator.start, 0, 3, [], []⟩ 4).1.curPosition ≠ 2 - 1 := by
  decide

/-! ## Claim C4 -/

/-- Claim C4, as stated, is false at 1-byte terms: `subarray(-Math.max(0,
1 - 1))` is `subarray(0)`, the whole chunk, so after a chunk `[97, 98, 99]`
the retained overlap for the term `"q"` has 3 bytes, not `1 - 1 = 0`. -/
theorem claim4_counterexample :
    (nextSearchBuffer [113] [97, 98, 99]).length = 3 ∧
      ¬(nextSearchBuffer [113] [97, 98, 99]).length = [113].length - 1 := by
  decide

/-- Claim C4 (amended): at every chunk boundary of the streaming search,
the retained overlap is `min(len(term) - 1, len(chunk))` bytes for terms of
byte length at least 2 (hence exactly `len(term) - 1` whenever the chunk is
at least that long), but for a term of byte length 1 the whole previous
chunk is retained. -/
theorem claim4_amended (t chunk : Bytes) (ht : t ≠ []) :
    (nextSearchBuffer t chunk).length =
      if 2 ≤ t.length then min (t.length - 1) chunk.length
      else chunk.length := by
  have htl : 1 ≤ t.length := List.length_pos.mpr ht
  simp only [nextSearchBuffer, Nat.zero_max]
  by_cases h2 : 2 ≤ t.length
  · rw [if_neg (by omega), if_pos h2, List.length_drop]
    omega
  · rw [if_pos (by omega), if_neg h2]

/-- Witness for the amended claim C4. -/
theorem claim4_amended_witness :
    ([113, 114, 115] : Bytes) ≠ [] ∧
      (nextSearchBuffer [113, 114, 115] [97, 98]).length =
        if 2 ≤ ([113, 114, 115] : Bytes).length
        then min (([113, 114, 115] : Bytes).length - 1)
          ([97, 98] : Bytes).length
        else ([97, 98] : Bytes).length :=
  ⟨by decide, claim4_amended [113, 114, 115] [97, 98] (by decide)⟩

/-! ## Trace lemmas: which reads are guarded by a stat -/

theorem statGuardedFrom_append_of_all (p : Event → Bool) (b : Bool)
    (xs ys : List Event) (hx : statGuardedFrom p b xs = true)
    (hy : ∀ b2, statGuardedFrom p b2 ys = true) :
    statGuardedFrom p b (xs ++ ys) = true := by
  induction xs generalizing b with
  | nil => simpa using hy b
  | cons e rest ih =>
    simp only [statGuardedFrom, Bool.and_eq_true] at hx
    simp only [List.cons_append, statGuardedFrom, Bool.and_eq_true]
    exact ⟨hx.1, ih _ hx.2⟩

theorem statGuardedFrom_of_noMain (p : Event → Bool) (ys : List Event)
    (h : ∀ ev ∈ ys, p ev = false) :
    ∀ b, statGuardedFrom p b ys = true := by
  induction ys with
  | nil => intro b; rfl
  | cons e rest ih =>
    intro b
    simp only [statGuardedFrom, Bool.and_eq_true]
    constructor
    · simp [h e (List.mem_cons_self e rest)]
    · exact ih (fun ev hev => h ev (List.mem_cons_of_mem e hev)) _

theorem mainSeg_guarded (pos len : Nat) (zs : List Event)
    (hz : ∀ ev ∈ zs, Event.isMainRead ev = false) :
    ∀ b, statGuardedFrom Event.isMainRead b
      (Event.stat :: Event.readMain pos len :: zs) = true := by
  intro b
  simp only [statGuardedFrom, Event.isMainRead, Bool.and_eq_true]
  refine ⟨rfl, rfl, ?_⟩
  have h := statGuardedFrom_of_noMain Event.isMainRead zs hz
  exact h _

theorem checkFileIntegrity_events (env : Env) (st : RState) :
    ((checkFileIntegrity env st).1).events = st.events ++ [Event.stat] := by
  simp only [checkFileIntegrity]
  split <;> rfl

theorem processBlockWithNewline_events (env : Env) (st : RState)
    (r p : Nat) :
    ((processBlockWithNewline env st r p).1).events = st.events := by
  simp only [processBlockWithNewline]
  rcases validateUtf8Chunk st.utf8Validator
      ((st.fileBuffer.take r).drop (p + 1) ++ st.leftover) false with _ | ⟨v⟩
  · rfl
  · dsimp only
    split <;> rfl

theorem finalLeftover_events (env : Env) (st : RState) :
    ((finalLeftover env st).1).events = st.events := by
  simp only [finalLeftover]
  split
  · rcases validateUtf8Chunk st.utf8Validator st.leftover false with _ | ⟨v⟩
    · rfl
    · rfl
  · rfl

theorem findNewlinePositionBackward_events (env : Env) :
    ∀ (fuel : Nat) (st : RState) (pos : Nat),
      ∃ xs, ((findNewlinePositionBackward env fuel st pos).1).events =
          st.events ++ xs ∧
        ∀ ev ∈ xs, Event.isMainRead ev = false := by
  intro fuel
  induction fuel with
  | zero => intro st pos; exact ⟨[], by simp [findNewlinePositionBackward], by simp⟩
  | succ fuel ih =>
    intro st pos
    simp only [findNewlinePositionBackward]
    split
    · cases hidx : (writeBuf st.fileBuffer
          (slice env.file (pos - min env.opts.blockSize pos)
            (pos - min env.opts.blockSize pos +
              min env.opts.blockSize pos))).findIdx? (fun b => b == NL) with
      | some q =>
        refine ⟨[Event.readScan (pos - min env.opts.blockSize pos)
          (min env.opts.blockSize pos)], ?_, ?_⟩
        · simp [hidx]
        · intro ev hev
          simp only [List.mem_singleton] at hev
          rw [hev]; rfl
      | none =>
        obtain ⟨ys, hys, hny⟩ := ih
          { st with
            fileBuffer := writeBuf st.fileBuffer
              (slice env.file (pos - min env.opts.blockSize pos)
                (pos - min env.opts.blockSize pos + min env.opts.blockSize pos))
            events := st.events ++ [Event.readScan
              (pos - min env.opts.blockSize pos) (min env.opts.blockSize pos)] }
          (pos - min env.opts.blockSize pos)
        refine ⟨[Event.readScan (pos - min env.opts.blockSize pos)
          (min env.opts.blockSize pos)] ++ ys, ?_, ?_⟩
        · rw [hys]
          simp [List.append_assoc]
        · intro ev hev
          rcases List.mem_append.mp hev with h | h
          · simp only [List.mem_singleton] at h
            rw [h]; rfl
          · exact hny ev h
    · exact ⟨[], by simp, by simp⟩

theorem streamingSearchGo_events (env : Env) (t : Bytes) :
    ∀ (fuel : Nat) (st : RState) (sb : Bytes) (pos endPos : Nat),
      ∃ xs, ((streamingSearchGo env t fuel st sb pos endPos).1).events =
          st.events ++ xs ∧
        ∀ ev ∈ xs, Event.isMainRead ev = false := by
  intro fuel
  induction fuel with
  | zero => intro st sb pos endPos; exact ⟨[], by simp [streamingSearchGo], by simp⟩
  | succ fuel ih =>
    intro st sb pos endPos
    simp only [streamingSearchGo]
    split
    · split
      · refine ⟨[Event.readSearch pos (min env.opts.blockSize (endPos - pos))],
          rfl, ?_⟩
        intro ev hev
        simp only [List.mem_singleton] at hev
        rw [hev]; rfl
      · obtain ⟨ys, hys, hny⟩ := ih
          { st with events := st.events ++
              [Event.readSearch pos (min env.opts.blockSize (endPos - pos))] }
          (nextSearchBuffer t (slice env.file pos
            (pos + min env.opts.blockSize (endPos - pos))))
          (pos + min env.opts.blockSize (endPos - pos)) endPos
        refine ⟨[Event.readSearch pos
          (min env.opts.blockSize (endPos - pos))] ++ ys, ?_, ?_⟩
        · rw [hys]
          simp [List.append_assoc]
        · intro ev hev
          rcases List.mem_append.mp hev with h | h
          · simp only [List.mem_singleton] at h
            rw [h]; rfl
          · exact hny ev h
    · exact ⟨[], by simp, by simp⟩

theorem streamingSearch_events (env : Env) (st : RState) (a b : Nat) :
    ∃ xs, ((streamingSearch env st a b).1).events = st.events ++ xs ∧
      ∀ ev ∈ xs, Event.isMainRead ev = false := by
  simp only [streamingSearch]
  rcases env.search with _ | t
  · exact ⟨[], by simp, by simp⟩
  · exact streamingSearchGo_events env t (b - a + 1) st [] a b

theorem emitOversized_events (env : Env) :
    ∀ (fuel : Nat) (st : RState) (temp : Bytes) (pos endPos : Nat),
      ∃ xs, ((emitOversized env fuel st temp pos endPos).1).events =
          st.events ++ xs ∧
        ∀ ev ∈ xs, Event.isMainRead ev = false := by
  intro fuel
  induction fuel with
  | zero => intro st temp pos endPos; exact ⟨[], by simp [emitOversized], by simp⟩
  | succ fuel ih =>
    intro st temp pos endPos
    simp only [emitOversized]
    split
    · cases hbd : findLastValidUTF8Boundary (temp ++
          (writeBuf st.fileBuffer (slice env.file pos
            (pos + min env.opts.blockSize (endPos - pos)))).take
            (min env.opts.blockSize (endPos - pos))) with
      | none =>
        refine ⟨[Event.readEmit pos (min env.opts.blockSize (endPos - pos))],
          by simp [hbd], ?_⟩
        intro ev hev
        simp only [List.mem_singleton] at hev
        rw [hev]; rfl
      | some vb =>
        rcases hval : validateUtf8Chunk st.utf8Validator
            ((temp ++ (writeBuf st.fileBuffer (slice env.file pos
              (pos + min env.opts.blockSize (endPos - pos)))).take
              (min env.opts.blockSize (endPos - pos))).take vb) true
            with _ | ⟨chunk2, v2⟩
        · refine ⟨[Event.readEmit pos (min env.opts.blockSize (endPos - pos))],
            by simp [hbd, hval], ?_⟩
          intro ev hev
          simp only [List.mem_singleton] at hev
          rw [hev]; rfl
        · dsimp only
          rw [hval]
          dsimp only
          obtain ⟨ys, hys, hny⟩ := ih
            { { st with
                fileBuffer := writeBuf st.fileBuffer (slice env.file pos
                  (pos + min env.opts.blockSize (endPos - pos)))
                events := st.events ++ [Event.readEmit pos
                  (min env.opts.blockSize (endPos - pos))] } with
              utf8Validator := v2
              output := ({ st with
                fileBuffer := writeBuf st.fileBuffer (slice env.file pos
                  (pos + min env.opts.blockSize (endPos - pos)))
                events := st.events ++ [Event.readEmit pos
                  (min env.opts.blockSize (endPos - pos))] } : RState).output
                ++ [chunk2] }
            ((temp ++
            (writeBuf st.fileBuffer (slice env.file pos
              (pos + min env.opts.blockSize (endPos - pos)))).take
              (min env.opts.blockSize (endPos - pos))).drop vb)
            (pos + min env.opts.blockSize (endPos - pos)) endPos
          refine ⟨[Event.readEmit pos (min env.opts.blockSize (endPos - pos))]
            ++ ys, ?_, ?_⟩
          · refine hys.trans ?_
            simp [List.append_assoc]
          · intro ev hev
            rcases List.mem_append.mp hev with h | h
            · simp only [List.mem_singleton] at h
              rw [h]; rfl
            · exact hny ev h
    · exact ⟨[], by simp, by simp⟩

theorem handleLargeLeftover_events (env : Env) (st : RState) (cp : Nat) :
    ∃ xs, ((handleLargeLeftover env st cp).1).events = st.events ++ xs ∧
      ∀ ev ∈ xs, Event.isMainRead ev = false := by
  simp only [handleLargeLeftover]
  obtain ⟨xs1, hxs1, hn1⟩ :=
    findNewlinePositionBackward_events env (cp + 1)
      { st with leftover := [] } cp
  rcases hscan : findNewlinePositionBackward env (cp + 1)
      { st with leftover := [] } cp with ⟨st1, e1, sp⟩
  rw [hscan] at hxs1
  dsimp only at hxs1
  rcases e1 with _ | e1
  · dsimp only
    obtain ⟨xs2, hxs2, hn2⟩ := streamingSearch_events env st1 sp
      (cp + st.leftover.length)
    rcases hsearch : streamingSearch env st1 sp (cp + st.leftover.length)
      with ⟨st2, e2, found⟩
    rw [hsearch] at hxs2
    dsimp only at hxs2
    have hn12 : ∀ ev ∈ xs1 ++ xs2, Event.isMainRead ev = false := by
      intro ev hev
      rcases List.mem_append.mp hev with h | h
      · exact hn1 ev h
      · exact hn2 ev h
    have hx2 : st2.events = st.events ++ (xs1 ++ xs2) := by
      rw [hxs2, hxs1, List.append_assoc]
    rcases e2 with _ | e2
    · rcases found with _ | _
      · exact ⟨xs1 ++ xs2, hx2, hn12⟩
      · dsimp only
        obtain ⟨xs3, hxs3, hn3⟩ := emitOversized_events env
          (cp + st.leftover.length - sp + 1) st2 [] sp
          (cp + st.leftover.length)
        rcases hemit : emitOversized env (cp + st.leftover.length - sp + 1)
            st2 [] sp (cp + st.leftover.length) with ⟨st3, e3⟩
        rw [hemit] at hxs3
        dsimp only at hxs3
        have hx3 : st3.events = st.events ++ (xs1 ++ xs2 ++ xs3) := by
          rw [hxs3, hx2]
          simp [List.append_assoc]
        have hn123 : ∀ ev ∈ xs1 ++ xs2 ++ xs3,
            Event.isMainRead ev = false := by
          intro ev hev
          rcases List.mem_append.mp hev with h | h
          · exact hn12 ev h
          · exact hn3 ev h
        rcases e3 with _ | e3
        · dsimp only
          cases hfin : finalizeValidation st3.utf8Validator with
          | error e4 => exact ⟨xs1 ++ xs2 ++ xs3, hx3, hn123⟩
          | ok v1 => exact ⟨xs1 ++ xs2 ++ xs3, hx3, hn123⟩
        · exact ⟨xs1 ++ xs2 ++ xs3, hx3, hn123⟩
    · exact ⟨xs1 ++ xs2, hx2, hn12⟩
  · exact ⟨xs1, hxs1, hn1⟩

/-- Every read of the main `readBlocks` loop is immediately preceded by the
stat of `checkFileIntegrity`; the reads of the oversized-line machinery
contribute no main-loop read events. -/
theorem readBlocksLoop_guarded (env : Env) :
    ∀ (fuel : Nat) (st : RState),
      statGuardedFrom Event.isMainRead false st.events = true →
      statGuardedFrom Event.isMainRead false
        ((readBlocksLoop env fuel st).1).events = true := by
  intro fuel
  induction fuel with
  | zero => intro st h; exact h
  | succ fuel ih =>
    intro st h
    simp only [readBlocksLoop]
    split
    · rcases hchk : checkFileIntegrity env st with ⟨st1, e1⟩
      have hev1 : st1.events = st.events ++ [Event.stat] := by
        have h2 := checkFileIntegrity_events env st
        rw [hchk] at h2
        exact h2
      rcases e1 with _ | e1
      · dsimp only
        cases hidx : (List.take (min env.opts.blockSize st1.curPosition)
            (writeBuf st1.fileBuffer (slice env.file
              (st1.curPosition - min env.opts.blockSize st1.curPosition)
              (st1.curPosition - min env.opts.blockSize st1.curPosition +
                min env.opts.blockSize st1.curPosition)))).findIdx?
            (fun b => b == NL) with
        | none =>
          dsimp only
          split
          · rcases hhl : handleLargeLeftover env
                { st1 with
                  curPosition :=
                    st1.curPosition - min env.opts.blockSize st1.curPosition
                  fileBuffer := writeBuf st1.fileBuffer (slice env.file
                    (st1.curPosition - min env.opts.blockSize st1.curPosition)
                    (st1.curPosition - min env.opts.blockSize st1.curPosition +
                      min env.opts.blockSize st1.curPosition))
                  events := st1.events ++ [Event.readMain
                    (st1.curPosition - min env.opts.blockSize st1.curPosition)
                    (min env.opts.blockSize st1.curPosition)]
                  leftover := (List.take (min env.opts.blockSize st1.curPosition)
                    (writeBuf st1.fileBuffer (slice env.file
                      (st1.curPosition - min env.opts.blockSize st1.curPosition)
                      (st1.curPosition - min env.opts.blockSize st1.curPosition +
                        min env.opts.blockSize st1.curPosition)))) ++
                    st1.leftover }
                (st1.curPosition - min env.opts.blockSize st1.curPosition)
              with ⟨st4, e4⟩
            have hev4 : ∃ zs, st4.events =
                st.events ++ (Event.stat :: Event.readMain
                  (st1.curPosition - min env.opts.blockSize st1.curPosition)
                  (min env.opts.blockSize st1.curPosition) :: zs) ∧
                ∀ ev ∈ zs, Event.isMainRead ev = false := by
              obtain ⟨zs, hzs, hnz⟩ := handleLargeLeftover_events env _ _
              rw [hhl] at hzs
              dsimp only at hzs
              refine ⟨zs, ?_, hnz⟩
              rw [hzs, hev1]
              simp [List.append_assoc]
            obtain ⟨zs, hzs, hnz⟩ := hev4
            have hst4 : statGuardedFrom Event.isMainRead false st4.events =
                true := by
              rw [hzs]
              exact statGuardedFrom_append_of_all _ _ _ _ h
                (mainSeg_guarded _ _ zs hnz)
            rcases e4 with _ | e4
            · dsimp only
              exact ih st4 hst4
            · dsimp only
              exact hst4
          · refine ih _ ?_
            have hseg := mainSeg_guarded
              (st1.curPosition - min env.opts.blockSize st1.curPosition)
              (min env.opts.blockSize st1.curPosition) [] (by simp)
            have hev2 : (({ st1 with
                curPosition :=
                  st1.curPosition - min env.opts.blockSize st1.curPosition
                fileBuffer := writeBuf st1.fileBuffer (slice env.file
                  (st1.curPosition - min env.opts.blockSize st1.curPosition)
                  (st1.curPosition - min env.opts.blockSize st1.curPosition +
                    min env.opts.blockSize st1.curPosition))
                events := st1.events ++ [Event.readMain
                  (st1.curPosition - min env.opts.blockSize st1.curPosition)
                  (min env.opts.blockSize st1.curPosition)]
                leftover := (List.take (min env.opts.blockSize st1.curPosition)
                  (writeBuf st1.fileBuffer (slice env.file
                    (st1.curPosition - min env.opts.blockSize st1.curPosition)
                    (st1.curPosition - min env.opts.blockSize st1.curPosition +
                      min env.opts.blockSize st1.curPosition)))) ++
                  st1.leftover } : RState)).events =
                st.events ++ [Event.stat, Event.readMain
                  (st1.curPosition - min env.opts.blockSize st1.curPosition)
                  (min env.opts.blockSize st1.curPosition)] := by
              dsimp only
              rw [hev1]
              simp [List.append_assoc]
            rw [hev2]
            exact statGuardedFrom_append_of_all _ _ _ _ h hseg
        | some p =>
          dsimp only
          rcases hpb : processBlockWithNewline env
              { st1 with
                curPosition :=
                  st1.curPosition - min env.opts.blockSize st1.curPosition
                fileBuffer := writeBuf st1.fileBuffer (slice env.file
                  (st1.curPosition - min env.opts.blockSize st1.curPosition)
                  (st1.curPosition - min env.opts.blockSize st1.curPosition +
                    min env.opts.blockSize st1.curPosition))
                events := st1.events ++ [Event.readMain
                  (st1.curPosition - min env.opts.blockSize st1.curPosition)
                  (min env.opts.blockSize st1.curPosition)] }
              (min env.opts.blockSize st1.curPosition) p with ⟨st3, e3⟩
          have hev3 : st3.events = st.events ++ [Event.stat, Event.readMain
              (st1.curPosition - min env.opts.blockSize st1.curPosition)
              (min env.opts.blockSize st1.curPosition)] := by
            have h3 := processBlockWithNewline_events env
              { st1 with
                curPosition :=
                  st1.curPosition - min env.opts.blockSize st1.curPosition
                fileBuffer := writeBuf st1.fileBuffer (slice env.file
                  (st1.curPosition - min env.opts.blockSize st1.curPosition)
                  (st1.curPosition - min env.opts.blockSize st1.curPosition +
                    min env.opts.blockSize st1.curPosition))
                events := st1.events ++ [Event.readMain
                  (st1.curPosition - min env.opts.blockSize st1.curPosition)
                  (min env.opts.blockSize st1.curPosition)] }
              (min env.opts.blockSize st1.curPosition) p
            rw [hpb] at h3
            dsimp only at h3
            rw [h3, hev1]
            simp [List.append_assoc]
          have hst3 : statGuardedFrom Event.isMainRead false st3.events =
              true := by
            rw [hev3]
            refine statGuardedFrom_append_of_all _ _ _ _ h ?_
            exact mainSeg_guarded _ _ [] (by simp)
          rcases e3 with _ | e3
          · dsimp only
            exact ih st3 hst3
          · dsimp only
            exact hst3
      · rw [hev1]
        exact statGuardedFrom_append_of_all _ _ _ _ h
          (statGuardedFrom_of_noMain _ _ (by simp [Event.isMainRead]))
    · rw [finalLeftover_events env st]
      exact h

/-- C5 counterexample: for the 10-byte file "x\n" followed by eight "A"s,
with blockSize 2 and memBuffer 3 and an unchanging modification time, the
oversized-line machinery performs reads (backward newline scan and forward
emission) that are not immediately preceded by a stat, so the claim "the
reader re-stats the file before every physical read it performs (in every
state, including the oversized-line backward scan, the streaming search,
and the forward emission of an oversized line)" fails on the code. -/
theorem claim5_counterexample :
    statBeforeEveryRead
      ((readBlocks ⟨[120, 10, 65, 65, 65, 65, 65, 65, 65, 65],
        ⟨2, 3⟩, none, none, fun _ => 0⟩).1).events = false := by
  decide

/-- C5 amended: (a) every *main-loop* read (the reads issued by
`readBlocks` itself, as opposed to the oversized-line machinery) is
immediately preceded by a stat of `checkFileIntegrity`; (b) whenever the
first re-stat of a non-empty read with a positive entry budget shows a
modification time strictly greater than the one captured at reset, the
whole operation aborts with the file-changed error, yields no output, and
performs no read at all (the trace is exactly the reset stat and the
failing stat). -/
theorem claim5_amended :
    (∀ env : Env,
      statBeforeEveryMainRead ((readBlocks env).1).events = true) ∧
    (∀ env : Env, env.mtimes 0 < env.mtimes 1 → env.file ≠ [] →
      entriesPos env.numEntries = true →
      (readBlocks env).2 = some RErr.fileModified ∧
      ((readBlocks env).1).output = [] ∧
      ((readBlocks env).1).events = [Event.stat, Event.stat]) := by
  constructor
  · intro env
    have h0 : statGuardedFrom Event.isMainRead false [Event.stat] = true := by
      decide
    exact readBlocksLoop_guarded env (env.file.length + 1) (resetState env) h0
  · intro env hm hf he
    have hpos : 0 < env.file.length := List.length_pos.mpr hf
    simp only [readBlocks, readBlocksLoop, resetState, checkFileIntegrity]
    rw [if_pos ⟨hpos, he⟩, if_pos hm]
    dsimp only
    exact ⟨rfl, rfl, rfl⟩

/-- Witness for the amended C5 at the file "a\n" with blockSize 1,
memBuffer 2, and a strictly increasing modification time. -/
theorem claim5_amended_witness :
    statBeforeEveryMainRead
      ((readBlocks ⟨[97, 10], ⟨1, 2⟩, none, none, fun k => k⟩).1).events =
        true ∧
    (readBlocks ⟨[97, 10], ⟨1, 2⟩, none, none, fun k => k⟩).2 =
        some RErr.fileModified ∧
    ((readBlocks ⟨[97, 10], ⟨1, 2⟩, none, none, fun k => k⟩).1).output =
        [] ∧
    ((readBlocks ⟨[97, 10], ⟨1, 2⟩, none, none, fun k => k⟩).1).events =
        [Event.stat, Event.stat] :=
  ⟨claim5_amended.1 ⟨[97, 10], ⟨1, 2⟩, none, none, fun k => k⟩,
    claim5_amended.2 ⟨[97, 10], ⟨1, 2⟩, none, none, fun k => k⟩
      (by decide) (by decide) (by decide)⟩

theorem step_ascii {b : Nat} (h : b ≤ 0x7F) :
    utf8Step Utf8State.clean b = some Utf8State.clean := by
  simp only [utf8Step]
  rw [if_pos h]

theorem step_2lead {b : Nat} (h1 : 0xC2 ≤ b) (h2 : b ≤ 0xDF) :
    utf8Step Utf8State.clean b = some (Utf8State.expect 1 0x80 0xBF) := by
  simp only [utf8Step]
  rw [if_neg (by omega), if_pos ⟨h1, h2⟩]

theorem step_3leadA {b : Nat} (h1 : 0xE1 ≤ b) (h2 : b ≤ 0xEC) :
    utf8Step Utf8State.clean b = some (Utf8State.expect 2 0x80 0xBF) := by
  simp only [utf8Step]
  rw [if_neg (by omega), if_neg (by omega), if_neg (by omega),
    if_neg (by omega), if_pos (Or.inl ⟨h1, h2⟩)]

theorem step_3leadB {b : Nat} (h1 : 0xEE ≤ b) (h2 : b ≤ 0xEF) :
    utf8Step Utf8State.clean b = some (Utf8State.expect 2 0x80 0xBF) := by
  simp only [utf8Step]
  rw [if_neg (by omega), if_neg (by omega), if_neg (by omega),
    if_neg (by omega), if_pos (Or.inr ⟨h1, h2⟩)]

theorem step_4lead {b : Nat} (h1 : 0xF1 ≤ b) (h2 : b ≤ 0xF3) :
    utf8Step Utf8State.clean b = some (Utf8State.expect 3 0x80 0xBF) := by
  simp only [utf8Step]
  rw [if_neg (by omega), if_neg (by omega), if_neg (by omega),
    if_neg (by omega), if_neg (by omega), if_neg (by omega),
    if_pos ⟨h1, h2⟩]

theorem step_cont1 {lo hi b : Nat} (h1 : lo ≤ b) (h2 : b ≤ hi) :
    utf8Step (Utf8State.expect 1 lo hi) b = some Utf8State.clean := by
  simp only [utf8Step]
  rw [if_pos ⟨h1, h2⟩, if_pos (le_refl 1)]

theorem step_cont2 {lo hi b : Nat} (h1 : lo ≤ b) (h2 : b ≤ hi) :
    utf8Step (Utf8State.expect 2 lo hi) b =
      some (Utf8State.expect 1 0x80 0xBF) := by
  simp only [utf8Step]
  rw [if_pos ⟨h1, h2⟩, if_neg (by omega)]

theorem step_cont3 {lo hi b : Nat} (h1 : lo ≤ b) (h2 : b ≤ hi) :
    utf8Step (Utf8State.expect 3 lo hi) b =
      some (Utf8State.expect 2 0x80 0xBF) := by
  simp only [utf8Step]
  rw [if_pos ⟨h1, h2⟩, if_neg (by omega)]

/-- A single character's encoding runs the decoder from clean back to
clean. -/
theorem run_char {c : Bytes} (h : encodesChar c) :
    utf8Run Utf8State.clean c = some Utf8State.clean := by
  rcases c with _ | ⟨b1, _ | ⟨b2, _ | ⟨b3, _ | ⟨b4, _ | ⟨b5, rest⟩⟩⟩⟩⟩
  · exact h.elim
  · have h1 : b1 ≤ 0x7F := h
    simp only [utf8Run, step_ascii h1]
  · obtain ⟨h1, h2, h3, h4⟩ := h
    simp only [utf8Run, step_2lead h1 h2, step_cont1 h3 h4]
  · obtain ⟨hd, h5, h6⟩ := h
    rcases hd with ⟨he, h3, h4⟩ | ⟨h1, h2, h3, h4⟩ | ⟨he, h3, h4⟩ |
      ⟨h1, h2, h3, h4⟩
    · subst he
      simp only [utf8Run, show utf8Step Utf8State.clean 0xE0 =
        some (Utf8State.expect 2 0xA0 0xBF) from by decide,
        step_cont2 h3 h4, step_cont1 h5 h6]
    · simp only [utf8Run, step_3leadA h1 h2, step_cont2 h3 h4,
        step_cont1 h5 h6]
    · subst he
      simp only [utf8Run, show utf8Step Utf8State.clean 0xED =
        some (Utf8State.expect 2 0x80 0x9F) from by decide,
        step_cont2 h3 h4, step_cont1 h5 h6]
    · simp only [utf8Run, step_3leadB h1 h2, step_cont2 h3 h4,
        step_cont1 h5 h6]
  · obtain ⟨hd, h5, h6, h7, h8⟩ := h
    rcases hd with ⟨he, h3, h4⟩ | ⟨h1, h2, h3, h4⟩ | ⟨he, h3, h4⟩
    · subst he
      simp only [utf8Run, show utf8Step Utf8State.clean 0xF0 =
        some (Utf8State.expect 3 0x90 0xBF) from by decide,
        step_cont3 h3 h4, step_cont2 h5 h6, step_cont1 h7 h8]
    · simp only [utf8Run, step_4lead h1 h2, step_cont3 h3 h4,
        step_cont2 h5 h6, step_cont1 h7 h8]
    · subst he
      simp only [utf8Run, show utf8Step Utf8State.clean 0xF4 =
        some (Utf8State.expect 3 0x80 0x8F) from by decide,
        step_cont3 h3 h4, step_cont2 h5 h6, step_cont1 h7 h8]
  · exact h.elim

/-- A concatenation of characters runs the decoder from clean to clean. -/
theorem chars_run {s : Bytes} (h : Utf8Chars s) :
    utf8Run Utf8State.clean s = some Utf8State.clean := by
  induction h with
  | nil => rfl
  | cons hc _ ih =>
    rw [utf8Run_append, run_char hc]
    simpa using ih

/-- Case analysis of one clean-state decoder step. -/
theorem utf8Step_clean_cases {b : Nat} {st : Utf8State}
    (h : utf8Step Utf8State.clean b = some st) :
    (b ≤ 0x7F ∧ st = Utf8State.clean) ∨
    (0xC2 ≤ b ∧ b ≤ 0xDF ∧ st = Utf8State.expect 1 0x80 0xBF) ∨
    (b = 0xE0 ∧ st = Utf8State.expect 2 0xA0 0xBF) ∨
    (b = 0xED ∧ st = Utf8State.expect 2 0x80 0x9F) ∨
    (((0xE1 ≤ b ∧ b ≤ 0xEC) ∨ (0xEE ≤ b ∧ b ≤ 0xEF)) ∧
      st = Utf8State.expect 2 0x80 0xBF) ∨
    (b = 0xF0 ∧ st = Utf8State.expect 3 0x90 0xBF) ∨
    (0xF1 ≤ b ∧ b ≤ 0xF3 ∧ st = Utf8State.expect 3 0x80 0xBF) ∨
    (b = 0xF4 ∧ st = Utf8State.expect 3 0x80 0x8F) := by
  simp only [utf8Step] at h
  repeat' split at h
  all_goals cases h
  all_goals simp_all

/-- Inverting a run that starts one continuation byte before clean. -/
theorem run_expect1 {lo hi : Nat} {s : Bytes}
    (h : utf8Run (Utf8State.expect 1 lo hi) s = some Utf8State.clean) :
    ∃ b2 s2, s = b2 :: s2 ∧ lo ≤ b2 ∧ b2 ≤ hi ∧
      utf8Run Utf8State.clean s2 = some Utf8State.clean := by
  cases s with
  | nil => simp [utf8Run] at h
  | cons b2 s2 =>
    simp only [utf8Run, utf8Step] at h
    split at h
    · cases h
    · rename_i s1 hcond
      by_cases hc : lo ≤ b2 ∧ b2 ≤ hi
      · rw [if_pos hc, if_pos (le_refl 1)] at hcond
        cases Option.some.inj hcond
        exact ⟨b2, s2, rfl, hc.1, hc.2, h⟩
      · rw [if_neg hc] at hcond
        cases hcond

/-- Inverting a run that starts two continuation bytes before clean. -/
theorem run_expect2 {lo hi : Nat} {s : Bytes}
    (h : utf8Run (Utf8State.expect 2 lo hi) s = some Utf8State.clean) :
    ∃ b2 b3 s2, s = b2 :: b3 :: s2 ∧ lo ≤ b2 ∧ b2 ≤ hi ∧
      0x80 ≤ b3 ∧ b3 ≤ 0xBF ∧
      utf8Run Utf8State.clean s2 = some Utf8State.clean := by
  cases s with
  | nil => simp [utf8Run] at h
  | cons b2 s1 =>
    simp only [utf8Run, utf8Step] at h
    split at h
    · cases h
    · rename_i sx hcond
      by_cases hc : lo ≤ b2 ∧ b2 ≤ hi
      · rw [if_pos hc, if_neg (by omega)] at hcond
        cases Option.some.inj hcond
        obtain ⟨b3, s2, hs, h3, h4, hrun⟩ := run_expect1 h
        exact ⟨b2, b3, s2, by rw [hs], hc.1, hc.2, h3, h4, hrun⟩
      · rw [if_neg hc] at hcond
        cases hcond

/-- Inverting a run that starts three continuation bytes before clean. -/
theorem run_expect3 {lo hi : Nat} {s : Bytes}
    (h : utf8Run (Utf8State.expect 3 lo hi) s = some Utf8State.clean) :
    ∃ b2 b3 b4 s2, s = b2 :: b3 :: b4 :: s2 ∧ lo ≤ b2 ∧ b2 ≤ hi ∧
      0x80 ≤ b3 ∧ b3 ≤ 0xBF ∧ 0x80 ≤ b4 ∧ b4 ≤ 0xBF ∧
      utf8Run Utf8State.clean s2 = some Utf8State.clean := by
  cases s with
  | nil => simp [utf8Run] at h
  | cons b2 s1 =>
    simp only [utf8Run, utf8Step] at h
    split at h
    · cases h
    · rename_i sx hcond
      by_cases hc : lo ≤ b2 ∧ b2 ≤ hi
      · rw [if_pos hc, if_neg (by omega)] at hcond
        cases Option.some.inj hcond
        obtain ⟨b3, b4, s2, hs, h3a, h3b, h4a, h4b, hrun⟩ :=
          run_expect2 h
        exact ⟨b2, b3, b4, s2, by rw [hs], hc.1, hc.2, h3a, h3b,
          h4a, h4b, hrun⟩
      · rw [if_neg hc] at hcond
        cases hcond

/-- A byte string the decoder accepts from clean to clean is a
concatenation of character encodings. -/
theorem run_clean_chars (s : Bytes) :
    utf8Run Utf8State.clean s = some Utf8State.clean → Utf8Chars s := by
  have key : ∀ (n : Nat) (s : Bytes), s.length = n →
      utf8Run Utf8State.clean s = some Utf8State.clean → Utf8Chars s := by
    intro n
    induction n using Nat.strong_induction_on with
    | _ n ih =>
      intro s hn h
      cases s with
      | nil => exact Utf8Chars.nil
      | cons b1 s1 =>
        subst hn
        simp only [utf8Run] at h
        cases hstep : utf8Step Utf8State.clean b1 with
        | none => rw [hstep] at h; cases h
        | some st =>
          rw [hstep] at h
          dsimp only at h
          rcases utf8Step_clean_cases hstep with ⟨hb, hst⟩ |
            ⟨hb1, hb2, hst⟩ | ⟨hb, hst⟩ | ⟨hb, hst⟩ | ⟨hb, hst⟩ |
            ⟨hb, hst⟩ | ⟨hb1, hb2, hst⟩ | ⟨hb, hst⟩
          · subst hst
            have hc : Utf8Chars s1 :=
              ih s1.length (by simp) s1 rfl h
            exact Utf8Chars.cons (c := [b1]) hb hc
          · subst hst
            obtain ⟨b2, s2, hs, hlo, hhi, hrun⟩ := run_expect1 h
            subst hs
            have hc : Utf8Chars s2 :=
              ih s2.length (by simp only [List.length_cons]; omega) s2
                rfl hrun
            exact Utf8Chars.cons (c := [b1, b2]) ⟨hb1, hb2, hlo, hhi⟩ hc
          · subst hst
            obtain ⟨b2, b3, s2, hs, hlo, hhi, h3a, h3b, hrun⟩ :=
              run_expect2 h
            subst hs
            have hc : Utf8Chars s2 :=
              ih s2.length (by simp only [List.length_cons]; omega) s2
                rfl hrun
            exact Utf8Chars.cons (c := [b1, b2, b3])
              ⟨Or.inl ⟨hb, hlo, hhi⟩, h3a, h3b⟩ hc
          · subst hst
            obtain ⟨b2, b3, s2, hs, hlo, hhi, h3a, h3b, hrun⟩ :=
              run_expect2 h
            subst hs
            have hc : Utf8Chars s2 :=
              ih s2.length (by simp only [List.length_cons]; omega) s2
                rfl hrun
            exact Utf8Chars.cons (c := [b1, b2, b3])
              ⟨Or.inr (Or.inr (Or.inl ⟨hb, hlo, hhi⟩)), h3a, h3b⟩ hc
          · subst hst
            obtain ⟨b2, b3, s2, hs, hlo, hhi, h3a, h3b, hrun⟩ :=
              run_expect2 h
            subst hs
            have hc : Utf8Chars s2 :=
              ih s2.length (by simp only [List.length_cons]; omega) s2
                rfl hrun
            rcases hb with ⟨h1, h2⟩ | ⟨h1, h2⟩
            · exact Utf8Chars.cons (c := [b1, b2, b3])
                ⟨Or.inr (Or.inl ⟨h1, h2, hlo, hhi⟩), h3a, h3b⟩ hc
            · exact Utf8Chars.cons (c := [b1, b2, b3])
                ⟨Or.inr (Or.inr (Or.inr ⟨h1, h2, hlo, hhi⟩)), h3a, h3b⟩ hc
          · subst hst
            obtain ⟨b2, b3, b4, s2, hs, hlo, hhi, h3a, h3b, h4a, h4b,
              hrun⟩ := run_expect3 h
            subst hs
            have hc : Utf8Chars s2 :=
              ih s2.length (by simp only [List.length_cons]; omega) s2
                rfl hrun
            exact Utf8Chars.cons (c := [b1, b2, b3, b4])
              ⟨Or.inl ⟨hb, hlo, hhi⟩, h3a, h3b, h4a, h4b⟩ hc
          · subst hst
            obtain ⟨b2, b3, b4, s2, hs, hlo, hhi, h3a, h3b, h4a, h4b,
              hrun⟩ := run_expect3 h
            subst hs
            have hc : Utf8Chars s2 :=
              ih s2.length (by simp only [List.length_cons]; omega) s2
                rfl hrun
            exact Utf8Chars.cons (c := [b1, b2, b3, b4])
              ⟨Or.inr (Or.inl ⟨hb1, hb2, hlo, hhi⟩), h3a, h3b, h4a, h4b⟩
              hc
          · subst hst
            obtain ⟨b2, b3, b4, s2, hs, hlo, hhi, h3a, h3b, h4a, h4b,
              hrun⟩ := run_expect3 h
            subst hs
            have hc : Utf8Chars s2 :=
              ih s2.length (by simp only [List.length_cons]; omega) s2
                rfl hrun
            exact Utf8Chars.cons (c := [b1, b2, b3, b4])
              ⟨Or.inr (Or.inr ⟨hb, hlo, hhi⟩), h3a, h3b, h4a, h4b⟩ hc
  exact key s.length s rfl

/-- Feeding chunks through one validator and then finalizing is the same
as running the decoder over the concatenation of the chunks. -/
theorem feedChunks_eq (cs : List Bytes) (v : UTF8Validator) :
    feedChunks v cs =
      match utf8Run v.decoder cs.flatten with
      | none => Except.error RErr.invalidUtf8
      | some st =>
        if st = Utf8State.clean then Except.ok ⟨Utf8State.clean⟩
        else Except.error RErr.incompleteUtf8 := by
  induction cs generalizing v with
  | nil => rfl
  | cons c cs ih =>
    simp only [feedChunks, validateUtf8Chunk, List.flatten_cons,
      utf8Run_append]
    cases hc : utf8Run v.decoder c with
    | none => rfl
    | some st =>
      simp only [if_true]
      rw [ih ⟨st⟩]
      simp only [Option.some_bind]

theorem feedChunks_start_eq (cs : List Bytes) :
    feedChunks UTF8Validator.start cs =
      match utf8Run Utf8State.clean cs.flatten with
      | none => Except.error RErr.invalidUtf8
      | some st =>
        if st = Utf8State.clean then Except.ok ⟨Utf8State.clean⟩
        else Except.error RErr.incompleteUtf8 :=
  feedChunks_eq cs UTF8Validator.start

/-- C6: feeding any chunk sequence through the `UTF8Validator` in streaming
mode and then finalizing (as the oversized-line emission path does) accepts
exactly the well-formed UTF-8 byte strings, independently of how they are
cut into chunks — so a multi-byte character split across two chunks is
accepted; any invalid sequence anywhere is a hard `invalidUtf8` failure
(never a replacement character); and an incomplete trailing sequence is
rejected by the finalize call with `incompleteUtf8`. -/
theorem claim6_streaming_utf8_validation (chunks : List Bytes) :
    ((∃ v, feedChunks UTF8Validator.start chunks = Except.ok v) ↔
      Utf8Chars chunks.flatten) ∧
    (utf8Run Utf8State.clean chunks.flatten = none →
      feedChunks UTF8Validator.start chunks =
        Except.error RErr.invalidUtf8) ∧
    (∀ st, utf8Run Utf8State.clean chunks.flatten = some st →
      st ≠ Utf8State.clean →
      feedChunks UTF8Validator.start chunks =
        Except.error RErr.incompleteUtf8) := by
  refine ⟨?_, ?_, ?_⟩
  · rw [feedChunks_start_eq]
    cases hrun : utf8Run Utf8State.clean chunks.flatten with
    | none =>
      constructor
      · rintro ⟨v, hv⟩
        cases hv
      · intro hchars
        have hr := chars_run hchars
        rw [hrun] at hr
        cases hr
    | some st =>
      dsimp only
      by_cases hst : st = Utf8State.clean
      · rw [if_pos hst]
        subst hst
        constructor
        · intro _
          exact run_clean_chars chunks.flatten hrun
        · intro _
          exact ⟨⟨Utf8State.clean⟩, rfl⟩
      · rw [if_neg hst]
        constructor
        · rintro ⟨v, hv⟩
          cases hv
        · intro hchars
          have hr := chars_run hchars
          rw [hrun] at hr
          exact absurd (Option.some.inj hr) hst
  · intro hnone
    rw [feedChunks_start_eq, hnone]
  · intro st hsome hst
    rw [feedChunks_start_eq, hsome]
    dsimp only
    rw [if_neg hst]

/-- Witness for C6: the lone byte 0xFF is rejected as invalid; the chunk
list cutting "é" (0xC3 0xA9) after its lead byte is accepted; the lead
byte alone, finalized, is rejected as incomplete. -/
theorem claim6_witness :
    feedChunks UTF8Validator.start [[0xFF]] =
        Except.error RErr.invalidUtf8 ∧
    feedChunks UTF8Validator.start [[0xC3]] =
        Except.error RErr.incompleteUtf8 ∧
    Utf8Chars (List.flatten [[0xC3], [0xA9]]) :=
  ⟨(claim6_streaming_utf8_validation [[0xFF]]).2.1 (by decide),
    (claim6_streaming_utf8_validation [[0xC3]]).2.2
      (Utf8State.expect 1 0x80 0xBF) (by decide) (by decide),
    (claim6_streaming_utf8_validation [[0xC3], [0xA9]]).1.mp
      ⟨⟨Utf8State.clean⟩, rfl⟩⟩

theorem dropWhile_all {p : Nat → Bool} {ws : List Nat} (t : List Nat)
    (h : ∀ c ∈ ws, p c = true) :
    (ws ++ t).dropWhile p = t.dropWhile p := by
  induction ws with
  | nil => rfl
  | cons a l ih =>
    rw [List.cons_append, List.dropWhile_cons,
      if_pos (h a (List.mem_cons_self a l))]
    exact ih (fun c hc => h c (List.mem_cons_of_mem a hc))

theorem takeWhile_all_append {p : Nat → Bool} {ds rest : List Nat}
    (hds : ∀ c ∈ ds, p c = true)
    (hrest : ∀ c ∈ rest.take 1, p c = false) :
    (ds ++ rest).takeWhile p = ds := by
  induction ds with
  | nil =>
    cases rest with
    | nil => rfl
    | cons a r =>
      rw [List.nil_append, List.takeWhile_cons,
        if_neg (by simp [hrest a (by simp)])]
  | cons a l ih =>
    rw [List.cons_append, List.takeWhile_cons,
      if_pos (hds a (List.mem_cons_self a l))]
    rw [ih (fun c hc => hds c (List.mem_cons_of_mem a hc))]

theorem mem_takeWhile_pred {p : Nat → Bool} {l : List Nat} {c : Nat}
    (h : c ∈ l.takeWhile p) : p c = true := by
  induction l with
  | nil => cases h
  | cons a t ih =>
    rw [List.takeWhile_cons] at h
    by_cases hp : p a = true
    · rw [if_pos hp] at h
      rcases List.mem_cons.mp h with rfl | h2
      · exact hp
      · exact ih h2
    · rw [if_neg hp] at h
      cases h

theorem take_one_dropWhile_false {p : Nat → Bool} (l : List Nat) :
    ∀ c ∈ (l.dropWhile p).take 1, p c = false := by
  induction l with
  | nil => intro c hc; cases hc
  | cons a t ih =>
    rw [List.dropWhile_cons]
    by_cases hp : p a = true
    · rw [if_pos hp]; exact ih
    · rw [if_neg hp]
      intro c hc
      simp only [List.take_succ_cons, List.take_zero,
        List.mem_singleton] at hc
      subst hc
      exact Bool.not_eq_true _ ▸ hp

theorem digit_not_ws {c : Nat} (h : isDigitB c = true) :
    isJsWhitespace c = false := by
  simp only [isDigitB, Bool.and_eq_true, decide_eq_true_eq] at h
  simp only [isJsWhitespace, Bool.or_eq_false_iff, Bool.and_eq_false_iff,
    decide_eq_false_iff_not]
  omega

theorem parseIntDec_nil {s : List Nat}
    (h : s.dropWhile isJsWhitespace = []) : parseIntDec s = none := by
  simp only [parseIntDec]
  rw [h]
  rfl

theorem parseIntDec_minus {s r : List Nat}
    (h : s.dropWhile isJsWhitespace = 45 :: r) :
    parseIntDec s =
      if (r.takeWhile isDigitB).isEmpty then none
      else some (-(digitsVal (r.takeWhile isDigitB) : Int)) := by
  simp only [parseIntDec]
  rw [h]
  simp

theorem parseIntDec_plus {s r : List Nat}
    (h : s.dropWhile isJsWhitespace = 43 :: r) :
    parseIntDec s =
      if (r.takeWhile isDigitB).isEmpty then none
      else some (digitsVal (r.takeWhile isDigitB) : Int) := by
  simp only [parseIntDec]
  rw [h]
  simp

theorem parseIntDec_nosign {s : List Nat} {c : Nat} {r : List Nat}
    (h : s.dropWhile isJsWhitespace = c :: r) (h45 : c ≠ 45)
    (h43 : c ≠ 43) :
    parseIntDec s =
      if (((c :: r).takeWhile isDigitB)).isEmpty then none
      else some (digitsVal ((c :: r).takeWhile isDigitB) : Int) := by
  simp only [parseIntDec]
  rw [h]
  have hS : (match c :: r with
      | (45 : Nat) :: _ => (-1 : Int)
      | _ => 1) = 1 := by
    split <;> simp_all
  have hX : (match c :: r with
      | (45 : Nat) :: r => r
      | (43 : Nat) :: r => r
      | r => r) = c :: r := by
    split <;> simp_all
  rw [hS, hX]
  simp

/-- C8 counterexample: the entries value "5x" is accepted by the validator
(`parseInt('5x', 10)` is 5), but it does not parse as a non-negative
integer — `parseInt`'s leniency accepts strings the claim says are
rejected. -/
theorem claim8_counterexample :
    entriesAccepted (some [53, 120]) = true ∧
      isNonNegIntString [53, 120] = false := by
  decide

/-- C8 amended: an absent entries parameter is accepted, and a present one
is accepted iff it consists of optional leading JavaScript whitespace, an
optional sign, a non-empty run of decimal digits not followed by a further
digit, whose value is at most `Number.MAX_SAFE_INTEGER` — and, when the
sign is "-", whose value is zero.  Everything after the digit run is
ignored. -/
theorem claim8_amended :
    entriesAccepted none = true ∧
    ∀ s : List Nat, entriesAccepted (some s) = true ↔
      ∃ ws sgn ds rest : List Nat,
        s = ws ++ sgn ++ ds ++ rest ∧
        (∀ c ∈ ws, isJsWhitespace c = true) ∧
        (sgn = [] ∨ sgn = [43] ∨ sgn = [45]) ∧
        ds ≠ [] ∧
        (∀ c ∈ ds, isDigitB c = true) ∧
        (∀ c ∈ rest.take 1, isDigitB c = false) ∧
        (sgn = [45] → digitsVal ds = 0) ∧
        digitsVal ds ≤ maxSafeInteger := by
  refine ⟨rfl, ?_⟩
  intro s
  constructor
  · intro hacc
    simp only [entriesAccepted] at hacc
    cases hp : parseIntDec s with
    | none => rw [hp] at hacc; cases hacc
    | some v =>
      rw [hp] at hacc
      dsimp only at hacc
      simp only [Bool.not_eq_true', Bool.or_eq_false_iff,
        decide_eq_false_iff_not] at hacc
      cases hs1 : s.dropWhile isJsWhitespace with
      | nil => rw [parseIntDec_nil hs1] at hp; cases hp
      | cons c r =>
        have hs : s = s.takeWhile isJsWhitespace ++ (c :: r) := by
          rw [← hs1, List.takeWhile_append_dropWhile]
        by_cases h45 : c = 45
        · subst h45
          rw [parseIntDec_minus hs1] at hp
          by_cases hemp : (r.takeWhile isDigitB).isEmpty = true
          · rw [if_pos hemp] at hp; cases hp
          · rw [if_neg hemp] at hp
            have hv : v = -(digitsVal (r.takeWhile isDigitB) : Int) :=
              (Option.some.inj hp).symm
            have hd0 : digitsVal (r.takeWhile isDigitB) = 0 := by
              have h1 := hacc.1
              rw [hv] at h1
              omega
            refine ⟨s.takeWhile isJsWhitespace, [45],
              r.takeWhile isDigitB, r.dropWhile isDigitB, ?_,
              fun c hc => mem_takeWhile_pred hc,
              Or.inr (Or.inr rfl),
              fun hnil => hemp (by simp [hnil]),
              fun c hc => mem_takeWhile_pred hc,
              take_one_dropWhile_false r,
              fun _ => hd0, by omega⟩
            conv_lhs => rw [hs]
            simp only [List.append_assoc, List.singleton_append,
              List.cons_append, List.nil_append]
            rw [List.takeWhile_append_dropWhile]
        · by_cases h43 : c = 43
          · subst h43
            rw [parseIntDec_plus hs1] at hp
            by_cases hemp : (r.takeWhile isDigitB).isEmpty = true
            · rw [if_pos hemp] at hp; cases hp
            · rw [if_neg hemp] at hp
              have hv : v = (digitsVal (r.takeWhile isDigitB) : Int) :=
                (Option.some.inj hp).symm
              have hdle : digitsVal (r.takeWhile isDigitB) ≤
                  maxSafeInteger := by
                have h2 := hacc.2
                rw [hv] at h2
                omega
              refine ⟨s.takeWhile isJsWhitespace, [43],
                r.takeWhile isDigitB, r.dropWhile isDigitB, ?_,
                fun c hc => mem_takeWhile_pred hc,
                Or.inr (Or.inl rfl),
                fun hnil => hemp (by simp [hnil]),
                fun c hc => mem_takeWhile_pred hc,
                take_one_dropWhile_false r,
                fun hcon => absurd hcon (by decide), hdle⟩
              conv_lhs => rw [hs]
              simp only [List.append_assoc, List.singleton_append,
                List.cons_append, List.nil_append]
              rw [List.takeWhile_append_dropWhile]
          · rw [parseIntDec_nosign hs1 h45 h43] at hp
            by_cases hemp : (((c :: r).takeWhile isDigitB)).isEmpty = true
            · rw [if_pos hemp] at hp; cases hp
            · rw [if_neg hemp] at hp
              have hv : v = (digitsVal ((c :: r).takeWhile isDigitB) :
                  Int) := (Option.some.inj hp).symm
              have hdle : digitsVal ((c :: r).takeWhile isDigitB) ≤
                  maxSafeInteger := by
                have h2 := hacc.2
                rw [hv] at h2
                omega
              refine ⟨s.takeWhile isJsWhitespace, [],
                (c :: r).takeWhile isDigitB,
                (c :: r).dropWhile isDigitB, ?_,
                fun c hc => mem_takeWhile_pred hc,
                Or.inl rfl,
                fun hnil => hemp (by simp [hnil]),
                fun c hc => mem_takeWhile_pred hc,
                take_one_dropWhile_false (c :: r),
                fun hcon => absurd hcon (by decide), hdle⟩
              conv_lhs => rw [hs]
              simp only [List.append_assoc, List.nil_append]
              rw [List.takeWhile_append_dropWhile]
  · rintro ⟨ws, sgn, ds, rest, hsplit, hws, hsgn, hne, hds, hrest,
      hminus, hle⟩
    have hdrop : s.dropWhile isJsWhitespace =
        (sgn ++ (ds ++ rest)).dropWhile isJsWhitespace := by
      rw [hsplit]
      simp only [List.append_assoc]
      exact dropWhile_all _ hws
    have htake : (ds ++ rest).takeWhile isDigitB = ds :=
      takeWhile_all_append hds hrest
    have hdsE : (ds.isEmpty = true) → False := by
      intro hh
      exact hne (by simpa using hh)
    rcases hsgn with rfl | rfl | rfl
    · rcases hdsnil : ds with _ | ⟨d0, ds2⟩
      · exact absurd hdsnil hne
      · subst hdsnil
        have hd0 : isDigitB d0 = true := hds d0 (by simp)
        have hdrop2 : s.dropWhile isJsWhitespace =
            d0 :: (ds2 ++ rest) := by
          rw [hdrop]
          simp only [List.nil_append, List.cons_append,
            List.dropWhile_cons]
          rw [digit_not_ws hd0]
          simp
        have hd0r : 48 ≤ d0 ∧ d0 ≤ 57 := by
          simpa [isDigitB] using hd0
        have hparse := parseIntDec_nosign hdrop2
          (by omega) (by omega)
        rw [show d0 :: (ds2 ++ rest) = (d0 :: ds2) ++ rest from rfl,
          htake] at hparse
        rw [if_neg (fun hh => hdsE hh)] at hparse
        simp only [entriesAccepted]
        rw [hparse]
        simp only [Bool.not_eq_true', Bool.or_eq_false_iff,
          decide_eq_false_iff_not]
        constructor <;> omega
    · have hdrop2 : s.dropWhile isJsWhitespace =
          43 :: (ds ++ rest) := by
        rw [hdrop]
        simp only [List.cons_append, List.nil_append,
          List.dropWhile_cons]
        norm_num [isJsWhitespace]
      have hparse := parseIntDec_plus hdrop2
      rw [htake, if_neg (fun hh => hdsE hh)] at hparse
      simp only [entriesAccepted]
      rw [hparse]
      simp only [Bool.not_eq_true', Bool.or_eq_false_iff,
        decide_eq_false_iff_not]
      constructor <;> omega
    · have hdrop2 : s.dropWhile isJsWhitespace =
          45 :: (ds ++ rest) := by
        rw [hdrop]
        simp only [List.cons_append, List.nil_append,
          List.dropWhile_cons]
        norm_num [isJsWhitespace]
      have hparse := parseIntDec_minus hdrop2
      rw [htake, if_neg (fun hh => hdsE hh)] at hparse
      simp only [entriesAccepted]
      rw [hparse]
      simp only [Bool.not_eq_true', Bool.or_eq_false_iff,
        decide_eq_false_iff_not]
      have h0 : digitsVal ds = 0 := hminus rfl
      rw [h0]
      constructor <;> omega

/-- Witness for the amended C8: the value U+2000, "+", "5", "x" (an EN QUAD
Zs space skipped by `parseInt`, a sign, one digit, trailing garbage) is
accepted, via the decomposition ws = [0x2000], sgn = "+", ds = "5",
rest = "x". -/
theorem claim8_amended_witness :
    entriesAccepted (some [0x2000, 43, 53, 120]) = true :=
  (claim8_amended.2 [0x2000, 43, 53, 120]).mpr
    ⟨[0x2000], [43], [53], [120], rfl, by decide, Or.inr (Or.inl rfl),
      by decide, by decide, by decide, fun hcon => absurd hcon (by decide),
      by decide⟩

/-- C9: the `ReverseBlockReader` constructor throws exactly when the
configured blockSize is at least the memBuffer ceiling; with
blockSize < memBuffer it succeeds for every entry count and search term,
returning the freshly allocated reader. -/
theorem claim9_constructor_guard (numEntries : Option Nat)
    (search : Option Bytes) (opts : BlockReaderOptions) :
    ((∃ e, mkReverseBlockReader numEntries search opts =
        Except.error e) ↔ opts.memBuffer ≤ opts.blockSize) ∧
    (opts.blockSize < opts.memBuffer →
      mkReverseBlockReader numEntries search opts =
        Except.ok ⟨numEntries, search, opts,
          List.replicate opts.blockSize 0⟩) := by
  constructor
  · constructor
    · rintro ⟨e, he⟩
      by_cases h : opts.memBuffer ≤ opts.blockSize
      · exact h
      · simp only [mkReverseBlockReader, if_neg h] at he
        cases he
    · intro h
      exact ⟨"blockSize must be less than memBuffer",
        by simp only [mkReverseBlockReader, if_pos h]⟩
  · intro h
    simp only [mkReverseBlockReader]
    rw [if_neg (show ¬(opts.memBuffer ≤ opts.blockSize) by omega)]

/-- Witness for C9: blockSize 1 with memBuffer 2 constructs; blockSize 3
with memBuffer 2 throws. -/
theorem claim9_witness :
    mkReverseBlockReader none none ⟨1, 2⟩ =
      Except.ok ⟨none, none, ⟨1, 2⟩, List.replicate 1 0⟩ ∧
    (∃ e, mkReverseBlockReader (some 5) (some [97]) ⟨3, 2⟩ =
      Except.error e) :=
  ⟨(claim9_constructor_guard none none ⟨1, 2⟩).2 (by decide),
    (claim9_constructor_guard (some 5) (some [97]) ⟨3, 2⟩).1.mpr
      (by decide)⟩

/-- C10: however `generateLines` fails — open failure, constructor throw,
integrity, encoding, or read error — the caller sees only the generic
message "Error reading file"; and the handle-closed flag equals `openOk`:
the handle is closed in the `finally` whenever it was opened, and only
then. -/
theorem claim10_generic_error (file : Bytes) (n : Option Nat)
    (s : Option Bytes) (mtimes : Nat → Nat) (openOk : Bool) :
    (∀ msg, (generateLines file n s mtimes openOk).1 =
      Except.error msg → msg = "Error reading file") ∧
    (generateLines file n s mtimes openOk).2 = openOk := by
  cases openOk with
  | false =>
    exact ⟨fun msg hmsg => (Except.error.inj hmsg).symm, rfl⟩
  | true =>
    simp only [generateLines, Bool.not_true]
    rw [if_neg (by decide)]
    rw [show mkReverseBlockReader n s defaultOptions =
        Except.ok ⟨n, s, defaultOptions,
          List.replicate defaultOptions.blockSize 0⟩ from by
      simp only [mkReverseBlockReader]
      rw [if_neg (show ¬(defaultOptions.memBuffer ≤
        defaultOptions.blockSize) by decide)]]
    dsimp only
    rcases hrb : readBlocks ⟨file, defaultOptions, n, s, mtimes⟩
      with ⟨st, e⟩
    rcases e with _ | e
    · refine ⟨fun msg hmsg => ?_, rfl⟩
      cases hmsg
    · exact ⟨fun msg hmsg => (Except.error.inj hmsg).symm, rfl⟩

/-- Witness for C10 at a failed open: the error is the generic message and
the handle, never opened, is not closed. -/
theorem claim10_witness :
    "Error reading file" = "Error reading file" ∧
    (generateLines [] none none (fun _ => 0) false).2 = false :=
  ⟨(claim10_generic_error [] none none (fun _ => 0) false).1
      "Error reading file" rfl,
    (claim10_generic_error [] none none (fun _ => 0) false).2⟩

end LogSearcher
